import Mathlib

/-!
Verification of the zkWasm GPU prover core (`src/lib.rs`, `src/device/cuda.rs`)
against its natural-language specification.

The Rust sources are shallowly embedded: host-side pure computations become
Lean functions over `List`; field elements are modelled either by their
canonical 256-bit integer representation (`Nat`, for byte-wise comparison
code) or by an abstract `Field`/`CommRing` instance; device-side state
(buffer cache, device memory, kernel launches) becomes explicit state
passing, with the opaque CUDA kernels recorded as events in a log.
Fallible code (Rust panics / `assert!`) returns `Option`.
-/

namespace ZkWasmProver

/-! ## Rotation-index computation (`evaluate_expr` / `evaluate_exprs`, lib.rs 216-304)

The closure
`|idx, rot, rot_scale, isize| (((idx as i32) + (rot * rot_scale)).rem_euclid(isize)) as usize`
is embedded with `Int.emod`, which agrees with Rust `rem_euclid` for a
positive modulus. -/

def get_rotation_idx (idx : Nat) (rot rot_scale : Int) (isize : Int) : Nat :=
  (((idx : Int) + rot * rot_scale).emod isize).toNat

/-- Halo2's `Expression` tree as consumed by `evaluate_expr`: constants,
column references (fixed / advice / instance) at a rotation, negation, sum,
product and scaling.  `selector` models the `Selector` constructor whose
evaluation panics ("virtual selectors are removed during optimization"). -/
inductive HExpr (F : Type) where
  | constant (c : F)
  | selector (idx : Nat)
  | fixed (column_index : Nat) (rotation : Int)
  | advice (column_index : Nat) (rotation : Int)
  | inst (column_index : Nat) (rotation : Int)
  | negated (a : HExpr F)
  | sum (a b : HExpr F)
  | product (a b : HExpr F)
  | scaled (a : HExpr F) (s : F)

/-- Checked column access: `cols[ci][r]` with Rust's panic-on-out-of-bounds
modelled as `none`. -/
def getColumn {F : Type} (cols : List (List F)) (ci r : Nat) : Option F := do
  let col ← cols.get? ci
  col.get? r

variable {F : Type}

/-- Evaluation of one `Expression` at row `idx`, following the closure passed
to `Expression::evaluate` in `evaluate_expr` (lib.rs 231-256).  The product
case keeps Rust's short-circuit: when the left value is zero the right
subtree is not evaluated. -/
def evalExprAt [CommRing F] [DecidableEq F] (fixed advice inst : List (List F))
    (size : Nat) (rot_scale : Int) (idx : Nat) : HExpr F → Option F
  | .constant c => some c
  | .selector _ => none
  | .fixed ci rot => getColumn fixed ci (get_rotation_idx idx rot rot_scale size)
  | .advice ci rot => getColumn advice ci (get_rotation_idx idx rot rot_scale size)
  | .inst ci rot => getColumn inst ci (get_rotation_idx idx rot rot_scale size)
  | .negated a => do
      let va ← evalExprAt fixed advice inst size rot_scale idx a
      some (-va)
  | .sum a b => do
      let va ← evalExprAt fixed advice inst size rot_scale idx a
      let vb ← evalExprAt fixed advice inst size rot_scale idx b
      some (va + vb)
  | .product a b => do
      let va ← evalExprAt fixed advice inst size rot_scale idx a
      if va = 0 then
        some va
      else do
        let vb ← evalExprAt fixed advice inst size rot_scale idx b
        some (va * vb)
  | .scaled a s => do
      let va ← evalExprAt fixed advice inst size rot_scale idx a
      some (va * s)

/-- Sequencing of fallible per-element evaluation, the embedding of a Rust
loop that panics as soon as one iteration panics. -/
def mapOption {α β : Type} (f : α → Option β) : List α → Option (List β)
  | [] => some []
  | a :: l => do
      let b ← f a
      let bs ← mapOption f l
      some (b :: bs)

/-- Embedding of `evaluate_expr` (lib.rs 216-258): `res` has `res_len`
entries; entry `idx` is overwritten with the expression value at row `idx`. -/
def evaluate_expr [CommRing F] [DecidableEq F] (expression : HExpr F) (size : Nat)
    (rot_scale : Int) (fixed advice inst : List (List F)) (res_len : Nat) :
    Option (List F) :=
  mapOption (fun idx => evalExprAt fixed advice inst size rot_scale idx expression)
    (List.range res_len)

/-- Folding of fallible steps, for the inner loop of `evaluate_exprs`. -/
def foldOption {α β : Type} (f : β → α → Option β) : List α → β → Option β
  | [], b => some b
  | a :: l, b => do
      let b ← f b a
      foldOption f l b

/-- Embedding of `evaluate_exprs` (lib.rs 261-304): each entry of `res` is
replaced by the theta-weighted accumulation `v * theta + expr_i(idx)` over
the expression list. -/
def evaluate_exprs [CommRing F] [DecidableEq F] (expressions : List (HExpr F))
    (size : Nat) (rot_scale : Int) (fixed advice inst : List (List F)) (theta : F)
    (res : List F) : Option (List F) :=
  mapOption
    (fun p =>
      foldOption
        (fun v e => do
          let w ← evalExprAt fixed advice inst size rot_scale p.1 e
          some (v * theta + w))
        expressions p.2)
    res.enum

/-- Expression contains no `selector` node (the code requires virtual
selectors to be removed before evaluation). -/
def noSelector : HExpr F → Bool
  | .constant _ => true
  | .selector _ => false
  | .fixed _ _ => true
  | .advice _ _ => true
  | .inst _ _ => true
  | .negated a => noSelector a
  | .sum a b => noSelector a && noSelector b
  | .product a b => noSelector a && noSelector b
  | .scaled a _ => noSelector a

/-- Every column index referenced by the expression is within the number of
fixed / advice / instance columns. -/
def colsInRange (nf na ni : Nat) : HExpr F → Bool
  | .constant _ => true
  | .selector _ => true
  | .fixed ci _ => ci < nf
  | .advice ci _ => ci < na
  | .inst ci _ => ci < ni
  | .negated a => colsInRange nf na ni a
  | .sum a b => colsInRange nf na ni a && colsInRange nf na ni b
  | .product a b => colsInRange nf na ni a && colsInRange nf na ni b
  | .scaled a _ => colsInRange nf na ni a

theorem get_rotation_idx_lt (idx : Nat) (rot rot_scale : Int) (size : Nat)
    (hsize : 0 < size) : get_rotation_idx idx rot rot_scale size < size := by
  unfold get_rotation_idx
  have hpos : (0 : Int) < (size : Int) := by exact_mod_cast hsize
  have h1 : ((idx : Int) + rot * rot_scale).emod (size : Int) < (size : Int) :=
    Int.emod_lt_of_pos _ hpos
  have h2 : 0 ≤ ((idx : Int) + rot * rot_scale).emod (size : Int) :=
    Int.emod_nonneg _ (by omega)
  omega

theorem getColumn_isSome {F : Type} (cols : List (List F)) (ci r : Nat)
    (hci : ci < cols.length) (hr : ∀ col ∈ cols, r < col.length) :
    (getColumn cols ci r).isSome := by
  unfold getColumn
  rw [List.get?_eq_get hci]
  simp only [Option.bind_eq_bind, Option.some_bind]
  have hmem : cols.get ⟨ci, hci⟩ ∈ cols := List.get_mem _ _ _
  rw [List.get?_eq_get (hr _ hmem)]
  rfl

theorem evalExprAt_isSome [CommRing F] [DecidableEq F]
    (fixed advice inst : List (List F)) (size : Nat) (rot_scale : Int) (idx : Nat)
    (e : HExpr F) (hsize : 0 < size)
    (hf : ∀ col ∈ fixed, size ≤ col.length)
    (ha : ∀ col ∈ advice, size ≤ col.length)
    (hi : ∀ col ∈ inst, size ≤ col.length)
    (hsel : noSelector e = true)
    (hcols : colsInRange fixed.length advice.length inst.length e = true) :
    (evalExprAt fixed advice inst size rot_scale idx e).isSome := by
  induction e with
  | constant c => simp [evalExprAt]
  | selector i => simp [noSelector] at hsel
  | fixed ci rot =>
      simp only [colsInRange, decide_eq_true_eq] at hcols
      exact getColumn_isSome _ _ _ hcols fun col hc =>
        lt_of_lt_of_le (get_rotation_idx_lt idx rot rot_scale size hsize) (hf col hc)
  | advice ci rot =>
      simp only [colsInRange, decide_eq_true_eq] at hcols
      exact getColumn_isSome _ _ _ hcols fun col hc =>
        lt_of_lt_of_le (get_rotation_idx_lt idx rot rot_scale size hsize) (ha col hc)
  | inst ci rot =>
      simp only [colsInRange, decide_eq_true_eq] at hcols
      exact getColumn_isSome _ _ _ hcols fun col hc =>
        lt_of_lt_of_le (get_rotation_idx_lt idx rot rot_scale size hsize) (hi col hc)
  | negated a iha =>
      simp only [noSelector] at hsel
      simp only [colsInRange] at hcols
      obtain ⟨va, hva⟩ := Option.isSome_iff_exists.mp (iha hsel hcols)
      simp [evalExprAt, hva]
  | sum a b iha ihb =>
      simp only [noSelector, Bool.and_eq_true] at hsel
      simp only [colsInRange, Bool.and_eq_true] at hcols
      obtain ⟨va, hva⟩ := Option.isSome_iff_exists.mp (iha hsel.1 hcols.1)
      obtain ⟨vb, hvb⟩ := Option.isSome_iff_exists.mp (ihb hsel.2 hcols.2)
      simp [evalExprAt, hva, hvb]
  | product a b iha ihb =>
      simp only [noSelector, Bool.and_eq_true] at hsel
      simp only [colsInRange, Bool.and_eq_true] at hcols
      obtain ⟨va, hva⟩ := Option.isSome_iff_exists.mp (iha hsel.1 hcols.1)
      obtain ⟨vb, hvb⟩ := Option.isSome_iff_exists.mp (ihb hsel.2 hcols.2)
      by_cases hz : va = 0 <;> simp [evalExprAt, hva, hvb, hz]
  | scaled a s iha =>
      simp only [noSelector] at hsel
      simp only [colsInRange] at hcols
      obtain ⟨va, hva⟩ := Option.isSome_iff_exists.mp (iha hsel hcols)
      simp [evalExprAt, hva]

theorem mapOption_isSome {α β : Type} (f : α → Option β) (l : List α)
    (h : ∀ a ∈ l, (f a).isSome) : (mapOption f l).isSome := by
  induction l with
  | nil => simp [mapOption]
  | cons a l ih =>
      obtain ⟨b, hb⟩ := Option.isSome_iff_exists.mp (h a (List.mem_cons_self _ _))
      obtain ⟨bs, hbs⟩ := Option.isSome_iff_exists.mp
        (ih fun x hx => h x (List.mem_cons_of_mem _ hx))
      simp [mapOption, hb, hbs]

/-- C9: for every positive `size`, every row index, rotation and `rot_scale`,
the rotation-index computation lands in `[0, size)`; consequently, when every
column has at least `size` entries and all column indices are in range,
`evaluate_expr` and `evaluate_exprs` never index a column out of bounds
(their checked embeddings succeed). -/
theorem rotation_index_in_range_and_no_oob [CommRing F] [DecidableEq F]
    (size : Nat) (hsize : 0 < size) :
    (∀ (idx : Nat) (rot rot_scale : Int),
        get_rotation_idx idx rot rot_scale size < size) ∧
    (∀ (rot_scale : Int) (e : HExpr F) (fixed advice inst : List (List F))
        (res_len : Nat), res_len ≤ size →
        (∀ col ∈ fixed, size ≤ col.length) →
        (∀ col ∈ advice, size ≤ col.length) →
        (∀ col ∈ inst, size ≤ col.length) →
        noSelector e = true →
        colsInRange fixed.length advice.length inst.length e = true →
        (evaluate_expr e size rot_scale fixed advice inst res_len).isSome) ∧
    (∀ (rot_scale : Int) (es : List (HExpr F)) (fixed advice inst : List (List F))
        (theta : F) (res : List F), res.length ≤ size →
        (∀ col ∈ fixed, size ≤ col.length) →
        (∀ col ∈ advice, size ≤ col.length) →
        (∀ col ∈ inst, size ≤ col.length) →
        (∀ e ∈ es, noSelector e = true) →
        (∀ e ∈ es, colsInRange fixed.length advice.length inst.length e = true) →
        (evaluate_exprs es size rot_scale fixed advice inst theta res).isSome) := by
  refine ⟨fun idx rot rs => get_rotation_idx_lt idx rot rs size hsize, ?_, ?_⟩
  · intro rot_scale e fixed advice inst res_len _ hf ha hi hsel hcols
    exact mapOption_isSome _ _ fun idx _ =>
      evalExprAt_isSome fixed advice inst size rot_scale idx e hsize hf ha hi hsel hcols
  · intro rot_scale es fixed advice inst theta res _ hf ha hi hsel hcols
    apply mapOption_isSome
    intro p hp
    clear hp
    induction es generalizing p with
    | nil => simp [foldOption]
    | cons e es ih =>
        obtain ⟨w, hw⟩ := Option.isSome_iff_exists.mp
          (evalExprAt_isSome fixed advice inst size rot_scale p.1 e hsize hf ha hi
            (hsel e (List.mem_cons_self _ _))
            (hcols e (List.mem_cons_self _ _)))
        have := ih (fun x hx => hsel x (List.mem_cons_of_mem _ hx))
          (fun x hx => hcols x (List.mem_cons_of_mem _ hx)) (p.1, p.2 * theta + w)
        simpa [foldOption, hw] using this

/-- Witness for C9 at concrete inputs: size 2, one fixed column of length 2,
expression `fixed[0]` at rotation `-1`. -/
theorem rotation_index_in_range_and_no_oob_witness :
    (0 : Nat) < 2 ∧
    get_rotation_idx 0 (-1) 1 2 < 2 ∧
    (evaluate_expr (F := Int) (.fixed 0 (-1)) 2 1 [[5, 7]] [] [] 2).isSome := by
  have h := rotation_index_in_range_and_no_oob (F := Int) 2 (by decide)
  refine ⟨by decide, h.1 0 (-1) 1, ?_⟩
  exact h.2.1 1 (.fixed 0 (-1)) [[5, 7]] [] [] 2 (by decide)
    (by intro col hc; simp at hc; simp [hc]) (by simp) (by simp)
    (by decide) (by decide)

/-! ## Device abstraction (`src/device/cuda.rs`)

CUDA API statuses are modelled by an inductive type; the only statuses the
embedded code inspects by name are `cudaSuccess` and
`cudaErrorHostMemoryAlreadyRegistered`, all others are collapsed into
`other code`. -/

inductive CudaError where
  | success
  | hostMemoryAlreadyRegistered
  | other (code : Nat)
deriving DecidableEq

/-- Embedding of `to_result` (cuda.rs 56-65): a non-success status becomes a
`DeviceError` carrying the status and the message. -/
def to_result {α : Type} (value : α) (res : CudaError) (msg : String) :
    Except (CudaError × String) α :=
  if res ≠ CudaError.success then Except.error (res, msg) else Except.ok value

/-- Host-pinning state of the CUDA runtime: the set of host slices (modelled
by an identifier) currently registered.  `cudaHostRegister` reports
`hostMemoryAlreadyRegistered` on a second registration of the same slice,
`success` otherwise. -/
structure HostPinState where
  pinned : List Nat

def cudaHostRegister (st : HostPinState) (slice : Nat) : CudaError × HostPinState :=
  if slice ∈ st.pinned then (CudaError.hostMemoryAlreadyRegistered, st)
  else (CudaError.success, { pinned := slice :: st.pinned })

/-- Pure status-handling logic of `pin_memory` (cuda.rs 335-348): an
`alreadyRegistered` status is intercepted and turned into `Ok(())` before
`to_result` runs. -/
def pin_memory_result (res : CudaError) : Except (CudaError × String) Unit :=
  if res = CudaError.hostMemoryAlreadyRegistered then Except.ok ()
  else to_result () res "fail to synchronize"

/-- Embedding of `CudaDevice::pin_memory` against the pinning state. -/
def pin_memory (st : HostPinState) (slice : Nat) :
    Except (CudaError × String) Unit × HostPinState :=
  let (res, st) := cudaHostRegister st slice
  (pin_memory_result res, st)

/-- C10: `pin_memory` succeeds on a success status and on
`cudaErrorHostMemoryAlreadyRegistered` — in particular pinning the same host
slice twice succeeds — and every other non-success status is returned as a
`DeviceError`. -/
theorem pin_memory_idempotent_and_errors :
    (∀ (st : HostPinState) (slice : Nat),
      (pin_memory st slice).1 = Except.ok () ∧
      (pin_memory (pin_memory st slice).2 slice).1 = Except.ok ()) ∧
    pin_memory_result CudaError.success = Except.ok () ∧
    pin_memory_result CudaError.hostMemoryAlreadyRegistered = Except.ok () ∧
    (∀ res : CudaError, res ≠ CudaError.success →
      res ≠ CudaError.hostMemoryAlreadyRegistered →
      (pin_memory_result res).isOk = false) := by
  refine ⟨?_, rfl, rfl, ?_⟩
  · intro st slice
    by_cases h : slice ∈ st.pinned
    · constructor <;>
        simp [pin_memory, cudaHostRegister, pin_memory_result, h]
    · refine ⟨?_, ?_⟩
      · simp [pin_memory, cudaHostRegister, pin_memory_result, h, to_result]
      · simp [pin_memory, cudaHostRegister, pin_memory_result, h, to_result,
          List.mem_cons]
  · intro res h1 h2
    simp [pin_memory_result, to_result, h1, h2, Except.isOk, Except.toBool]

/-- Witness for C10 at a concrete state: pinning slice 3 twice from the empty
pinning state succeeds both times, and the status `other 1` is an error. -/
theorem pin_memory_idempotent_and_errors_witness :
    ((pin_memory ⟨[]⟩ 3).1 = Except.ok () ∧
      (pin_memory (pin_memory ⟨[]⟩ 3).2 3).1 = Except.ok ()) ∧
    (pin_memory_result (CudaError.other 1)).isOk = false :=
  ⟨pin_memory_idempotent_and_errors.1 ⟨[]⟩ 3,
    pin_memory_idempotent_and_errors.2.2.2 (CudaError.other 1)
      (by decide) (by decide)⟩

/-! ## Device buffer cache: drop path (cuda.rs 16, 93-112)

`CUDA_BUFFER_CACHE` is a map from `(device, byte-size)` to a vector of free
addresses; it is modelled as a total function defaulting to `[]` (the Rust
code inserts an empty vector on first touch via `or_insert`, so the two
representations coincide).  `Vec::push` appends at the end, `Vec::pop`
removes the last element. -/

def HUGE_BUFFER_SIZE : Nat := 1 <<< 28

abbrev BufferCache := (Int × Nat) → List Nat

def emptyCache : BufferCache := fun _ => []

def cacheSet (c : BufferCache) (k : Int × Nat) (v : List Nat) : BufferCache :=
  fun k' => if k' = k then v else c k'

theorem cacheSet_same (c : BufferCache) (k : Int × Nat) (v : List Nat) :
    cacheSet c k v k = v := by
  simp [cacheSet]

theorem cacheSet_other (c : BufferCache) (k k' : Int × Nat) (v : List Nat)
    (h : k' ≠ k) : cacheSet c k v k' = c k' := by
  simp [cacheSet, h]

/-- Raw device buffer handle: address, owning device, byte size. -/
structure CudaDeviceBufRaw where
  ptr : Nat
  device : Int
  size : Nat
deriving DecidableEq

/-- Embedding of `Drop for CudaDeviceBufRaw` (cuda.rs 93-112).  Returns the
updated cache and whether `cudaFreeAsync` was invoked; `none` models the
`assert!(!arr.contains(..))` panic on a duplicate address. -/
def dropCudaBuf (cache : BufferCache) (buf : CudaDeviceBufRaw) :
    Option (BufferCache × Bool) :=
  if buf.size < HUGE_BUFFER_SIZE then
    let arr := cache (buf.device, buf.size)
    if buf.ptr ∈ arr then none
    else some (cacheSet cache (buf.device, buf.size) (arr ++ [buf.ptr]), false)
  else
    some (cache, true)

/-- C7: dropping a device buffer smaller than the 2^28-byte huge-buffer
threshold pushes its address into the cache entry for `(device, size)`
without freeing it; dropping a buffer at or above the threshold frees it
asynchronously and leaves the cache untouched. -/
theorem dropCudaBuf_spec (cache : BufferCache) (buf : CudaDeviceBufRaw) :
    (buf.size < 2 ^ 28 → buf.ptr ∉ cache (buf.device, buf.size) →
      dropCudaBuf cache buf =
        some (cacheSet cache (buf.device, buf.size)
          (cache (buf.device, buf.size) ++ [buf.ptr]), false)) ∧
    (2 ^ 28 ≤ buf.size → dropCudaBuf cache buf = some (cache, true)) := by
  have hh : HUGE_BUFFER_SIZE = 2 ^ 28 := by decide
  constructor
  · intro hs hmem
    simp [dropCudaBuf, hh, hs, hmem]
    omega
  · intro hs
    simp [dropCudaBuf, hh, Nat.not_lt.mpr hs]
    omega

/-- Witness for C7 at concrete buffers: a 32-byte buffer is cached, a
2^28-byte buffer is freed. -/
theorem dropCudaBuf_spec_witness :
    dropCudaBuf emptyCache ⟨100, 0, 32⟩ =
      some (cacheSet emptyCache (0, 32) [100], false) ∧
    dropCudaBuf emptyCache ⟨100, 0, 2 ^ 28⟩ = some (emptyCache, true) := by
  constructor
  · have h := (dropCudaBuf_spec emptyCache ⟨100, 0, 32⟩).1 (by norm_num)
      (by simp [emptyCache])
    simpa [emptyCache] using h
  · exact (dropCudaBuf_spec emptyCache ⟨100, 0, 2 ^ 28⟩).2 (by norm_num)

/-! ## Device buffer cache: allocation path (cuda.rs 175-211, 266-274)

Device byte-addressable memory is modelled as a total function from address
to byte value.  `cudaMalloc` is an environment action handing back an
address; it performs no write, so the returned region keeps whatever the
memory function held there (CUDA gives no zero-initialisation guarantee).
`cudaMemset(ptr, 0, size)` zeroes the region. -/

structure DeviceMemState where
  cache : BufferCache
  mem : Nat → Nat

def memsetZero (mem : Nat → Nat) (ptr size : Nat) : Nat → Nat :=
  fun a => if ptr ≤ a ∧ a < ptr + size then 0 else mem a

/-- Embedding of `CudaDevice::_alloc_device_buffer` (cuda.rs 175-211) for a
device `dev` and an element type of `elemBytes` bytes.  The cache entry for
`(dev, count * elemBytes)` is popped from the back when non-empty (then
`cudaMemset` runs when `zero` is set); otherwise `cudaMalloc` supplies
`mallocAddr` and no write happens. -/
def _alloc_device_buffer (st : DeviceMemState) (dev : Int) (elemBytes count : Nat)
    (zero : Bool) (mallocAddr : Nat) : CudaDeviceBufRaw × DeviceMemState :=
  let size := count * elemBytes
  let arr := st.cache (dev, size)
  match arr.getLast? with
  | some ptr =>
      let st := { st with cache := cacheSet st.cache (dev, size) arr.dropLast }
      let st := if zero then { st with mem := memsetZero st.mem ptr size } else st
      ({ ptr := ptr, device := dev, size := size }, st)
  | none =>
      ({ ptr := mallocAddr, device := dev, size := size }, st)

/-- Embedding of `CudaDevice::alloc_device_buffer` (cuda.rs 266-268): the
`zero` flag is set. -/
def alloc_device_buffer (st : DeviceMemState) (dev : Int) (elemBytes count : Nat)
    (mallocAddr : Nat) : CudaDeviceBufRaw × DeviceMemState :=
  _alloc_device_buffer st dev elemBytes count true mallocAddr

/-- The bytes of a buffer are all zero in the given memory. -/
def bufferZeroed (mem : Nat → Nat) (buf : CudaDeviceBufRaw) : Prop :=
  ∀ a, buf.ptr ≤ a → a < buf.ptr + buf.size → mem a = 0

/-- C4 as stated is false on the code: `alloc_device_buffer` zeroes a buffer
popped from the recycled pool, but the fresh `cudaMalloc` path performs no
write, so the fresh buffer's contents are whatever the device memory already
held.  Concretely, with an empty cache and memory holding byte 1 everywhere,
the returned one-byte buffer is not zeroed. -/
theorem alloc_device_buffer_fresh_not_zeroed :
    ¬ bufferZeroed
        (alloc_device_buffer ⟨emptyCache, fun _ => 1⟩ 0 1 1 7).2.mem
        (alloc_device_buffer ⟨emptyCache, fun _ => 1⟩ 0 1 1 7).1 := by
  intro h
  have := h 7 (by simp [alloc_device_buffer, _alloc_device_buffer, emptyCache])
    (by simp [alloc_device_buffer, _alloc_device_buffer, emptyCache])
  simp [alloc_device_buffer, _alloc_device_buffer, emptyCache] at this

/-- C4 (amended): `alloc_device_buffer` always returns a buffer of exactly
`count * sizeOf(T)` bytes on the requested device; when the buffer is popped
from the recycled pool the `zero` flag clears it, so its contents are
entirely zero; on the fresh-allocation path the contents are whatever the
device allocator provides (no explicit zeroing). -/
theorem alloc_device_buffer_spec (st : DeviceMemState) (dev : Int)
    (elemBytes count : Nat) (mallocAddr : Nat) :
    (alloc_device_buffer st dev elemBytes count mallocAddr).1.size =
        count * elemBytes ∧
    (alloc_device_buffer st dev elemBytes count mallocAddr).1.device = dev ∧
    (st.cache (dev, count * elemBytes) ≠ [] →
      bufferZeroed (alloc_device_buffer st dev elemBytes count mallocAddr).2.mem
        (alloc_device_buffer st dev elemBytes count mallocAddr).1) ∧
    (st.cache (dev, count * elemBytes) = [] →
      (alloc_device_buffer st dev elemBytes count mallocAddr).1.ptr = mallocAddr ∧
      (alloc_device_buffer st dev elemBytes count mallocAddr).2.mem = st.mem) := by
  unfold alloc_device_buffer _alloc_device_buffer
  rcases hlast : (st.cache (dev, count * elemBytes)).getLast? with _ | ptr
  · rw [List.getLast?_eq_none_iff] at hlast
    refine ⟨by simp [hlast], by simp [hlast], fun hne => absurd hlast hne, fun _ => ?_⟩
    simp [hlast]
  · have hne : st.cache (dev, count * elemBytes) ≠ [] := by
      intro h
      rw [h] at hlast
      simp at hlast
    refine ⟨by simp [hlast], by simp [hlast], fun _ => ?_, fun h => absurd h hne⟩
    simp only [hlast, bufferZeroed, memsetZero]
    intro a ha1 ha2
    simp [memsetZero, ha1, ha2]

/-- Witness for C4's amended theorem: popping address 5 from a one-entry
cache yields a zeroed 2-byte buffer even though memory held 9 there. -/
theorem alloc_device_buffer_spec_witness :
    (cacheSet emptyCache (0, 2) [5]) (0, 2) ≠ [] ∧
    bufferZeroed
      (alloc_device_buffer ⟨cacheSet emptyCache (0, 2) [5], fun _ => 9⟩ 0 1 2 7).2.mem
      (alloc_device_buffer ⟨cacheSet emptyCache (0, 2) [5], fun _ => 9⟩ 0 1 2 7).1 := by
  refine ⟨by simp [cacheSet, emptyCache], ?_⟩
  exact (alloc_device_buffer_spec ⟨cacheSet emptyCache (0, 2) [5], fun _ => 9⟩
    0 1 2 7).2.2.1 (by simp [cacheSet, emptyCache])

/-! ## Device buffer cache: global invariant (C8)

A system state is the device memory state (cache plus memory) together with
the list of live `CudaDeviceBufRaw` handles.  Transitions are buffer
allocation (`_alloc_device_buffer`, either popping the cache or receiving a
fresh `cudaMalloc` address — which the driver guarantees is disjoint from
every address it still considers allocated, i.e. every cached or live
address, since cached addresses are never returned to the driver) and
buffer drop (`Drop for CudaDeviceBufRaw`). -/

structure SysState where
  dev : DeviceMemState
  live : List CudaDeviceBufRaw

theorem alloc_cache_hit {st : DeviceMemState} {d : Int} {elemBytes count : Nat}
    {zero : Bool} {mallocAddr ptr : Nat}
    (hlast : (st.cache (d, count * elemBytes)).getLast? = some ptr) :
    (_alloc_device_buffer st d elemBytes count zero mallocAddr).1 =
      ⟨ptr, d, count * elemBytes⟩ ∧
    (_alloc_device_buffer st d elemBytes count zero mallocAddr).2.cache =
      cacheSet st.cache (d, count * elemBytes)
        (st.cache (d, count * elemBytes)).dropLast := by
  unfold _alloc_device_buffer
  simp only [hlast]
  cases zero <;> simp

theorem alloc_cache_miss {st : DeviceMemState} {d : Int} {elemBytes count : Nat}
    {zero : Bool} {mallocAddr : Nat}
    (hempty : st.cache (d, count * elemBytes) = []) :
    (_alloc_device_buffer st d elemBytes count zero mallocAddr).1 =
      ⟨mallocAddr, d, count * elemBytes⟩ ∧
    (_alloc_device_buffer st d elemBytes count zero mallocAddr).2.cache =
      st.cache := by
  unfold _alloc_device_buffer
  simp [hempty]

inductive CacheStep : SysState → SysState → Prop where
  | alloc (s : SysState) (d : Int) (elemBytes count : Nat) (zero : Bool)
      (mallocAddr : Nat)
      (hfresh : s.dev.cache (d, count * elemBytes) = [] →
        (∀ k, mallocAddr ∉ s.dev.cache k) ∧ ∀ b ∈ s.live, b.ptr ≠ mallocAddr) :
      CacheStep s
        { dev := (_alloc_device_buffer s.dev d elemBytes count zero mallocAddr).2,
          live :=
            (_alloc_device_buffer s.dev d elemBytes count zero mallocAddr).1 ::
              s.live }
  | drop (s : SysState) (b : CudaDeviceBufRaw) (pre post : List CudaDeviceBufRaw)
      (c2 : BufferCache) (freed : Bool)
      (hlive : s.live = pre ++ b :: post)
      (hdrop : dropCudaBuf s.dev.cache b = some (c2, freed)) :
      CacheStep s { dev := { s.dev with cache := c2 }, live := pre ++ post }

def initSys (mem : Nat → Nat) : SysState :=
  { dev := ⟨emptyCache, mem⟩, live := [] }

inductive CacheReachable : SysState → Prop where
  | init (mem : Nat → Nat) : CacheReachable (initSys mem)
  | step {s t : SysState} : CacheReachable s → CacheStep s t → CacheReachable t

/-- Inductive invariant: every cache entry is duplicate-free, no address sits
in two entries, no cached address belongs to a live buffer, and live buffers
have pairwise distinct addresses. -/
def CacheInv (s : SysState) : Prop :=
  (∀ k, (s.dev.cache k).Nodup) ∧
  (∀ k k' a, a ∈ s.dev.cache k → a ∈ s.dev.cache k' → k = k') ∧
  (∀ k, ∀ b ∈ s.live, b.ptr ∉ s.dev.cache k) ∧
  s.live.Pairwise (fun x y => x.ptr ≠ y.ptr)

theorem cacheInv_init (mem : Nat → Nat) : CacheInv (initSys mem) := by
  refine ⟨fun k => ?_, fun k k' a ha ha' => ?_, fun k b hb => ?_, ?_⟩ <;>
    simp_all [initSys, emptyCache]

theorem cacheInv_step {s t : SysState} (hstep : CacheStep s t) (hinv : CacheInv s) :
    CacheInv t := by
  obtain ⟨h1, h2, h3, h4⟩ := hinv
  cases hstep with
  | alloc d elemBytes count z mallocAddr hfresh =>
      rcases hlast : (s.dev.cache (d, count * elemBytes)).getLast? with _ | ptr
      · -- cudaMalloc path
        rw [List.getLast?_eq_none_iff] at hlast
        obtain ⟨hf1, hf2⟩ := hfresh hlast
        obtain ⟨hbuf, hcache⟩ :=
          @alloc_cache_miss s.dev d elemBytes count z mallocAddr hlast
        refine ⟨?_, ?_, ?_, ?_⟩
        · intro k
          simp only [hcache]
          exact h1 k
        · intro k k' a
          simp only [hcache]
          exact h2 k k' a
        · intro k b hb
          simp only [hcache]
          rcases List.mem_cons.mp hb with hb | hb
          · rw [hb, hbuf]
            exact hf1 k
          · exact h3 k b hb
        · refine List.pairwise_cons.mpr ⟨?_, h4⟩
          intro b hb
          rw [hbuf]
          exact fun hcontra => hf2 b hb hcontra.symm
      · -- cache pop path
        obtain ⟨hbuf, hcache⟩ :=
          @alloc_cache_hit s.dev d elemBytes count z mallocAddr ptr hlast
        have hdec : (s.dev.cache (d, count * elemBytes)).dropLast ++ [ptr] =
            s.dev.cache (d, count * elemBytes) :=
          List.dropLast_append_getLast? ptr (by simp [hlast, Option.mem_def])
        have hptr_mem : ptr ∈ s.dev.cache (d, count * elemBytes) := by
          rw [← hdec]
          simp
        have hptr_not_dl : ptr ∉ (s.dev.cache (d, count * elemBytes)).dropLast := by
          have hnd := h1 (d, count * elemBytes)
          rw [← hdec] at hnd
          have := List.disjoint_of_nodup_append hnd
          intro hmem
          exact this hmem (by simp)
        have hsub : ∀ k a, a ∈ (cacheSet s.dev.cache (d, count * elemBytes)
            (s.dev.cache (d, count * elemBytes)).dropLast) k → a ∈ s.dev.cache k := by
          intro k a ha
          by_cases hk : k = (d, count * elemBytes)
          · subst hk
            simp only [cacheSet, if_pos rfl] at ha
            exact List.dropLast_sublist _ |>.subset ha
          · simpa [cacheSet, hk] using ha
        refine ⟨?_, ?_, ?_, ?_⟩
        · intro k
          simp only [hcache]
          by_cases hk : k = (d, count * elemBytes)
          · subst hk
            simp only [cacheSet, if_pos rfl]
            exact (h1 _).sublist (List.dropLast_sublist _)
          · simpa [cacheSet, hk] using h1 k
        · intro k k' a ha ha'
          simp only [hcache] at ha ha'
          exact h2 k k' a (hsub k a ha) (hsub k' a ha')
        · intro k b hb
          simp only [hcache]
          rcases List.mem_cons.mp hb with hb | hb
          · rw [hb, hbuf]
            intro hmem
            have hold : ptr ∈ s.dev.cache k := hsub k ptr hmem
            have hk : k = (d, count * elemBytes) := h2 k _ ptr hold hptr_mem
            subst hk
            simp only [cacheSet, if_pos rfl] at hmem
            exact hptr_not_dl hmem
          · intro hmem
            exact h3 k b hb (hsub k b.ptr hmem)
        · refine List.pairwise_cons.mpr ⟨?_, h4⟩
          intro b hb
          rw [hbuf]
          intro hcontra
          exact h3 (d, count * elemBytes) b hb (hcontra ▸ hptr_mem)
  | drop b pre post c2 freed hlive hdrop =>
      have hmem_b : b ∈ s.live := by
        rw [hlive]
        simp
      have hlive_pairs := h4
      rw [hlive] at hlive_pairs
      have hpp_sub : (pre ++ post).Sublist (pre ++ b :: post) :=
        (List.sublist_cons_self b post).append_left pre
      have hmem_rest : ∀ b' ∈ pre ++ post, b' ∈ s.live := by
        intro b' hb'
        rw [hlive]
        exact hpp_sub.subset hb'
      have hne_b : ∀ b' ∈ pre ++ post, b'.ptr ≠ b.ptr := by
        intro b' hb'
        rcases List.mem_append.mp hb' with hb' | hb'
        · have := (List.pairwise_append.mp hlive_pairs).2.2 b' hb' b (by simp)
          exact this
        · have hcons := (List.pairwise_append.mp hlive_pairs).2.1
          have := (List.pairwise_cons.mp hcons).1 b' hb'
          exact fun h => this h.symm
      unfold dropCudaBuf at hdrop
      by_cases hsz : b.size < HUGE_BUFFER_SIZE
      · simp only [if_pos hsz] at hdrop
        by_cases hptr : b.ptr ∈ s.dev.cache (b.device, b.size)
        · simp [hptr] at hdrop
        · simp only [if_neg hptr, Option.some.injEq, Prod.mk.injEq] at hdrop
          obtain ⟨hc2, _⟩ := hdrop
          subst hc2
          refine ⟨?_, ?_, ?_, hlive_pairs.sublist hpp_sub⟩
          · intro k
            dsimp only
            by_cases hk : k = (b.device, b.size)
            · subst hk
              rw [cacheSet_same, List.nodup_append]
              exact ⟨h1 _, List.nodup_singleton _, by
                intro a ha
                simp only [List.mem_singleton]
                intro hcontra
                exact hptr (hcontra ▸ ha)⟩
            · rw [cacheSet_other _ _ _ _ hk]
              exact h1 k
          · intro k k' a ha ha'
            dsimp only at ha ha'
            have hcase : ∀ kk, a ∈ (cacheSet s.dev.cache (b.device, b.size)
                (s.dev.cache (b.device, b.size) ++ [b.ptr])) kk →
                a ∈ s.dev.cache kk ∨ (kk = (b.device, b.size) ∧ a = b.ptr) := by
              intro kk hkk
              by_cases hk : kk = (b.device, b.size)
              · subst hk
                rw [cacheSet_same] at hkk
                rcases List.mem_append.mp hkk with hkk | hkk
                · exact Or.inl hkk
                · exact Or.inr ⟨rfl, List.mem_singleton.mp hkk⟩
              · rw [cacheSet_other _ _ _ _ hk] at hkk
                exact Or.inl hkk
            rcases hcase k ha with hka | ⟨hkeq, haeq⟩
            · rcases hcase k' ha' with hka' | ⟨hkeq', haeq'⟩
              · exact h2 k k' a hka hka'
              · exact absurd hka (haeq' ▸ h3 k b hmem_b)
            · rcases hcase k' ha' with hka' | ⟨hkeq', haeq'⟩
              · exact absurd hka' (haeq ▸ h3 k' b hmem_b)
              · rw [hkeq, hkeq']
          · intro k b' hb'
            dsimp only at hb' ⊢
            by_cases hk : k = (b.device, b.size)
            · subst hk
              rw [cacheSet_same]
              intro hmem
              rcases List.mem_append.mp hmem with hmem | hmem
              · exact h3 _ b' (hmem_rest b' hb') hmem
              · exact hne_b b' hb' (List.mem_singleton.mp hmem)
            · rw [cacheSet_other _ _ _ _ hk]
              exact h3 k b' (hmem_rest b' hb')
      · simp only [if_neg hsz, Option.some.injEq, Prod.mk.injEq] at hdrop
        obtain ⟨hc2, _⟩ := hdrop
        subst hc2
        exact ⟨h1, h2, fun k b' hb' => h3 k b' (hmem_rest b' hb'),
          hlive_pairs.sublist hpp_sub⟩

theorem cacheInv_reachable {s : SysState} (h : CacheReachable s) : CacheInv s := by
  induction h with
  | init mem => exact cacheInv_init mem
  | step _ hstep ih => exact cacheInv_step hstep ih

/-- C8: in every state reachable by allocations and drops, each cache entry
is duplicate-free, no cached address belongs to a live buffer, and dropping
any live buffer succeeds — the `assert!(!arr.contains(..))` on the drop path
never fires. -/
theorem cache_never_aliases (s : SysState) (h : CacheReachable s) :
    (∀ k, (s.dev.cache k).Nodup) ∧
    (∀ k, ∀ b ∈ s.live, b.ptr ∉ s.dev.cache k) ∧
    (∀ b ∈ s.live, (dropCudaBuf s.dev.cache b).isSome) := by
  obtain ⟨h1, _, h3, _⟩ := cacheInv_reachable h
  refine ⟨h1, h3, ?_⟩
  intro b hb
  unfold dropCudaBuf
  by_cases hsz : b.size < HUGE_BUFFER_SIZE
  · simp [hsz, h3 (b.device, b.size) b hb]
  · simp [hsz]

/-- Intermediate concrete states for the C8 witness. -/
def c8Mem : Nat → Nat := fun _ => 0

def c8State1 : SysState :=
  { dev := { cache := emptyCache, mem := c8Mem }, live := [{ ptr := 4, device := 0, size := 8 }] }

def c8State2 : SysState :=
  { dev := { cache := cacheSet emptyCache (0, 8) [4], mem := c8Mem }, live := [] }

/-- Witness for C8: a concrete reachable state, obtained by allocating one
8-byte buffer from the empty cache (fresh address 4) and then dropping it;
the invariant holds there. -/
theorem cache_never_aliases_witness :
    (∀ k, (c8State2.dev.cache k).Nodup) ∧
    (∀ b ∈ c8State2.live, (dropCudaBuf c8State2.dev.cache b).isSome) := by
  have halloc : _alloc_device_buffer { cache := emptyCache, mem := c8Mem } 0 8 1 true 4 =
      ({ ptr := 4, device := 0, size := 8 }, { cache := emptyCache, mem := c8Mem }) := by
    simp [_alloc_device_buffer, emptyCache]
  have hs1 : CacheReachable c8State1 := by
    have hstep := CacheStep.alloc (initSys c8Mem) 0 8 1 true 4
      (fun _ => ⟨fun k => by simp [initSys, emptyCache], fun b hb => by
        simp [initSys] at hb⟩)
    rw [show (initSys c8Mem).dev = { cache := emptyCache, mem := c8Mem } from rfl,
      halloc] at hstep
    exact CacheReachable.step (CacheReachable.init c8Mem) hstep
  have hdrop : dropCudaBuf c8State1.dev.cache { ptr := 4, device := 0, size := 8 } =
      some (cacheSet emptyCache (0, 8) [4], false) := by
    simp [c8State1, dropCudaBuf, HUGE_BUFFER_SIZE, emptyCache]
  have hstep2 := CacheStep.drop (s := c8State1) { ptr := 4, device := 0, size := 8 }
    [] [] (cacheSet emptyCache (0, 8) [4]) false (by simp [c8State1]) hdrop
  have hs2 : CacheReachable c8State2 := by
    have := CacheReachable.step hs1 hstep2
    simpa [c8State1, c8State2] using this
  have h := cache_never_aliases _ hs2
  exact ⟨h.1, h.2.2⟩

/-! ## Lookup permute step: `handle_lookup_pair` (lib.rs 130-213)

Field elements are modelled by their canonical 256-bit unsigned integer
representation as `Nat`: the Rust code compares raw `[u64; 4]` limbs, which
is exactly the numeric order on the canonical representation, and equality
of field elements is equality of representations.  `sort_unstable_by` is a
comparison sort; it is embedded as insertion sort over the same order (the
Rust algorithm is unspecified beyond sortedness and permutation).
`ADD_RANDOM` is `false` (lib.rs 60), so the blinding-row randomisation
branch at lib.rs 203-210 is dead code and the rows past
`unusable_rows_start` keep their values. -/

def ADD_RANDOM : Bool := false

def sortUnusablePart (l : List Nat) (k : Nat) : List Nat :=
  List.insertionSort (· ≤ ·) (l.take k) ++ l.drop k

/-- Row `r` starts a new run of equal values in the sorted input
(lib.rs 160: `row == 0 || *input_value != permuted_input[row - 1]`). -/
def isRunStart (pi : List Nat) (r : Nat) : Bool :=
  r = 0 || pi.getD r 0 ≠ pi.getD (r - 1) 0

theorem isRunStart_iff (pi : List Nat) (r : Nat) :
    isRunStart pi r = true ↔ (r = 0 ∨ pi.getD r 0 ≠ pi.getD (r - 1) 0) := by
  simp [isRunStart]

/-- State of `permuted_table_state` after the marking loop (lib.rs 153-164). -/
def runStartFlags (pi : List Nat) : List Bool :=
  (List.range pi.length).map (isRunStart pi)

/-- State of `permuted_table` after the marking loop: run-start rows hold the input
value, the rest still hold the zero they were initialised with. -/
def initPermutedTable (pi : List Nat) : List Nat :=
  (List.range pi.length).map fun r => if isRunStart pi r then pi.getD r 0 else 0

/-- Embedding of `to_next_unique` (lib.rs 166-170): advance the cursor over rows whose
state flag is unset. -/
def toNextUnique (state : List Bool) (unusable i : Nat) : Nat :=
  if h : i < unusable ∧ state.getD i false = false then
    toNextUnique state unusable (i + 1)
  else i
termination_by unusable - i
decreasing_by
  simp_wf
  omega

theorem toNextUnique_ge (state : List Bool) (unusable i : Nat) :
    i ≤ toNextUnique state unusable i := by
  rw [toNextUnique]
  by_cases h : i < unusable ∧ state.getD i false = false
  · rw [dif_pos h]
    have ih := toNextUnique_ge state unusable (i + 1)
    omega
  · rw [dif_neg h]
termination_by unusable - i
decreasing_by
  simp_wf
  omega

/-- Inner while loop of the fill pass (lib.rs 176-182): advance over
run-start rows whose marked value matches the next sorted-table value. -/
def matchLoop (pt sorted_table : List Nat) (state : List Bool) (unusable : Nat)
    (iu si : Nat) : Nat × Nat :=
  if h : iu < unusable ∧ pt.getD iu 0 = sorted_table.getD si 0 then
    matchLoop pt sorted_table state unusable
      (toNextUnique state unusable (iu + 1)) (si + 1)
  else (iu, si)
termination_by unusable - iu
decreasing_by
  simp_wf
  have := toNextUnique_ge state unusable (iu + 1)
  omega

/-- One iteration of the fill pass (lib.rs 174-187), carrying
`(permuted_table, i_unique_input_idx, i_sorted_table_idx)`. -/
def fillStep (sorted_table : List Nat) (state : List Bool) (unusable : Nat)
    (acc : List Nat × Nat × Nat) (i : Nat) : List Nat × Nat × Nat :=
  let iu0 := toNextUnique state unusable acc.2.1
  let ms := matchLoop acc.1 sorted_table state unusable iu0 acc.2.2
  if state.getD i false = false then
    (acc.1.set i (sorted_table.getD ms.2 0), ms.1, ms.2 + 1)
  else
    (acc.1, ms.1, ms.2)

def fillTable (sorted_table : List Nat) (state : List Bool) (unusable : Nat)
    (pt0 : List Nat) : List Nat :=
  ((List.range unusable).foldl (fillStep sorted_table state unusable)
    (pt0, 0, 0)).1

/-- Embedding of `handle_lookup_pair` (lib.rs 130-213). -/
def handle_lookup_pair (input table : List Nat) (unusable_rows_start : Nat) :
    List Nat × List Nat :=
  let permuted_input := sortUnusablePart input unusable_rows_start
  let sorted_table := sortUnusablePart table unusable_rows_start
  let state := runStartFlags permuted_input
  let pt0 := initPermutedTable permuted_input
  let permuted_table := fillTable sorted_table state unusable_rows_start pt0
  (permuted_input, permuted_table)

/-- Embedding of the verification loop (lib.rs 189-201): `false` models the
`assert_eq!` / `Option::unwrap` panic. -/
def checkLoop : List (Nat × Nat) → Option Nat → Bool
  | [], _ => true
  | p :: rest, last =>
    if p.1 ≠ p.2 then
      match last with
      | none => false
      | some lv => if p.1 = lv then checkLoop rest (some p.1) else false
    else checkLoop rest (some p.1)

theorem fillStep_preserve (sorted_table : List Nat) (state : List Bool)
    (unusable : Nat) (acc : List Nat × Nat × Nat) (i r : Nat)
    (hr : state.getD r false = true) :
    (fillStep sorted_table state unusable acc i).1.getD r 0 = acc.1.getD r 0 := by
  unfold fillStep
  by_cases hi : state.getD i false = false
  · rw [if_pos hi]
    have hne : i ≠ r := by
      intro h
      rw [h, hr] at hi
      simp at hi
    simp [List.getD_eq_getElem?_getD, List.getElem?_set_ne hne]
  · rw [if_neg hi]

theorem fillFold_preserve (sorted_table : List Nat) (state : List Bool)
    (unusable : Nat) (l : List Nat) (acc : List Nat × Nat × Nat) (r : Nat)
    (hr : state.getD r false = true) :
    ((l.foldl (fillStep sorted_table state unusable) acc).1.getD r 0) =
      acc.1.getD r 0 := by
  induction l generalizing acc with
  | nil => rfl
  | cons i l ih =>
      rw [List.foldl_cons, ih]
      exact fillStep_preserve sorted_table state unusable acc i r hr

theorem fillStep_length (sorted_table : List Nat) (state : List Bool)
    (unusable : Nat) (acc : List Nat × Nat × Nat) (i : Nat) :
    (fillStep sorted_table state unusable acc i).1.length = acc.1.length := by
  unfold fillStep
  by_cases hi : state.getD i false = false
  · rw [if_pos hi]
    exact List.length_set _ _ _
  · rw [if_neg hi]

theorem fillFold_length (sorted_table : List Nat) (state : List Bool)
    (unusable : Nat) (l : List Nat) (acc : List Nat × Nat × Nat) :
    ((l.foldl (fillStep sorted_table state unusable) acc).1.length) =
      acc.1.length := by
  induction l generalizing acc with
  | nil => rfl
  | cons i l ih =>
      rw [List.foldl_cons, ih]
      exact fillStep_length sorted_table state unusable acc i

theorem sortUnusablePart_length (l : List Nat) (k : Nat) :
    (sortUnusablePart l k).length = l.length := by
  unfold sortUnusablePart
  rw [List.length_append, List.length_insertionSort, List.length_take,
    List.length_drop]
  omega

theorem range_map_getD {α : Type} [Inhabited α] (n r : Nat) (f : Nat → α)
    (h : r < n) : ((List.range n).map f).getD r default = f r := by
  rw [List.getD_eq_getElem?_getD, List.getElem?_map, List.getElem?_range h]
  rfl

theorem runStartFlags_getD (pi : List Nat) (r : Nat) (h : r < pi.length) :
    (runStartFlags pi).getD r false = isRunStart pi r := by
  unfold runStartFlags
  have := range_map_getD (α := Bool) pi.length r (isRunStart pi) h
  simpa using this

theorem initPermutedTable_getD (pi : List Nat) (r : Nat) (h : r < pi.length) :
    (initPermutedTable pi).getD r 0 =
      if isRunStart pi r then pi.getD r 0 else 0 := by
  unfold initPermutedTable
  have := range_map_getD (α := Nat) pi.length r
    (fun r => if isRunStart pi r then pi.getD r 0 else 0) h
  simpa using this

/-- At every run-start row the filled permuted table still holds the marked
input value: the fill loop only writes rows whose state flag is unset. -/
theorem permuted_table_at_run_start (input table : List Nat) (u r : Nat)
    (hr : r < (sortUnusablePart input u).length)
    (hrun : isRunStart (sortUnusablePart input u) r = true) :
    (handle_lookup_pair input table u).2.getD r 0 =
      (sortUnusablePart input u).getD r 0 := by
  unfold handle_lookup_pair fillTable
  have hflag : (runStartFlags (sortUnusablePart input u)).getD r false = true := by
    rw [runStartFlags_getD _ _ hr]
    exact hrun
  rw [fillFold_preserve _ _ _ _ _ _ hflag]
  simp only
  rw [initPermutedTable_getD _ _ hr, if_pos hrun]

theorem checkLoop_true (l : List (Nat × Nat)) (last : Option Nat)
    (h : ∀ k, k < l.length → (l.getD k (0, 0)).1 ≠ (l.getD k (0, 0)).2 →
      (k = 0 → ∃ lv, last = some lv ∧ (l.getD 0 (0, 0)).1 = lv) ∧
      (0 < k → (l.getD k (0, 0)).1 = (l.getD (k - 1) (0, 0)).1)) :
    checkLoop l last = true := by
  induction l generalizing last with
  | nil => rfl
  | cons p rest ih =>
      have hshift : ∀ k, k < rest.length →
          (rest.getD k (0, 0)).1 ≠ (rest.getD k (0, 0)).2 →
          (k = 0 → ∃ lv, some p.1 = some lv ∧ (rest.getD 0 (0, 0)).1 = lv) ∧
          (0 < k → (rest.getD k (0, 0)).1 = (rest.getD (k - 1) (0, 0)).1) := by
        intro k hk hne
        have hk1 := h (k + 1) (by simpa using Nat.succ_lt_succ hk)
          (by simpa [List.getD_cons_succ] using hne)
        constructor
        · intro hk0
          subst hk0
          refine ⟨p.1, rfl, ?_⟩
          have := hk1.2 (by omega)
          simpa [List.getD_cons_succ, List.getD_cons_zero] using this
        · intro hkpos
          have := hk1.2 (by omega)
          rcases k with _ | k
          · omega
          · simpa [List.getD_cons_succ] using this
      unfold checkLoop
      by_cases hp : p.1 ≠ p.2
      · rw [if_pos hp]
        have h0 := h 0 (by simp) (by simpa [List.getD_cons_zero] using hp)
        obtain ⟨lv, hlv, hplv⟩ := h0.1 rfl
        rw [hlv]
        simp only [List.getD_cons_zero] at hplv
        show (if p.1 = lv then checkLoop rest (some p.1) else false) = true
        rw [if_pos hplv]
        exact ih _ hshift
      · rw [if_neg hp]
        exact ih _ hshift

theorem zip_take_getD (a b : List Nat) (u k : Nat) (hk : k < u)
    (ha : k < a.length) (hb : k < b.length) :
    (((a.zip b).take u).getD k (0, 0)) = (a.getD k 0, b.getD k 0) := by
  have hz : (a.zip b)[k]? = some (a.getD k 0, b.getD k 0) := by
    rw [List.getElem?_zip_eq_some]
    constructor
    · rw [List.getElem?_eq_getElem ha]
      simp [List.getD_eq_getElem?_getD, List.getElem?_eq_getElem ha]
    · rw [List.getElem?_eq_getElem hb]
      simp [List.getD_eq_getElem?_getD, List.getElem?_eq_getElem hb]
  rw [List.getD_eq_getElem?_getD, List.getElem?_take, if_pos hk, hz]
  rfl

/-- C1: for every `(input, table)` pair of equal length in which every input
value of the prefix `[0, unusable_rows_start)` appears in the table prefix,
`handle_lookup_pair` returns permuted columns whose mismatching rows `r`
within the prefix satisfy `r > 0` and
`permuted_input[r] = permuted_input[r-1]`, and the `assert_eq!` verification
loop never fails.  (The proof uses only the structure of the marking and
fill loops; the table-membership precondition is part of the claim but is
not needed.) -/
theorem handle_lookup_pair_continuity (input table : List Nat)
    (unusable_rows_start : Nat)
    (hlen : input.length = table.length)
    (hu : unusable_rows_start ≤ input.length)
    (hsub : ∀ v ∈ input.take unusable_rows_start,
      v ∈ table.take unusable_rows_start) :
    (∀ r < unusable_rows_start,
      (handle_lookup_pair input table unusable_rows_start).1.getD r 0 ≠
        (handle_lookup_pair input table unusable_rows_start).2.getD r 0 →
      0 < r ∧
        (handle_lookup_pair input table unusable_rows_start).1.getD r 0 =
          (handle_lookup_pair input table unusable_rows_start).1.getD (r - 1) 0) ∧
    checkLoop
      (((handle_lookup_pair input table unusable_rows_start).1.zip
          (handle_lookup_pair input table unusable_rows_start).2).take
        unusable_rows_start) none = true := by
  set u := unusable_rows_start with hu_def
  set pi := sortUnusablePart input u with hpi
  have hpi_len : pi.length = input.length := sortUnusablePart_length input u
  have hfst : (handle_lookup_pair input table u).1 = pi := rfl
  have hpt_len : (handle_lookup_pair input table u).2.length = pi.length := by
    show (fillTable _ _ _ _).length = pi.length
    unfold fillTable
    rw [fillFold_length]
    show (initPermutedTable pi).length = pi.length
    unfold initPermutedTable
    simp
  have hmain : ∀ r < u,
      (handle_lookup_pair input table u).1.getD r 0 ≠
        (handle_lookup_pair input table u).2.getD r 0 →
      0 < r ∧ pi.getD r 0 = pi.getD (r - 1) 0 := by
    intro r hr hne
    have hrlen : r < pi.length := by omega
    by_cases hrun : isRunStart pi r = true
    · exfalso
      apply hne
      rw [hfst, permuted_table_at_run_start input table u r hrlen hrun]
    · rw [isRunStart_iff] at hrun
      push_neg at hrun
      exact ⟨Nat.pos_of_ne_zero hrun.1, hrun.2⟩
  refine ⟨fun r hr hne => by
    have := hmain r hr hne
    exact ⟨this.1, by rw [hfst]; exact this.2⟩, ?_⟩
  apply checkLoop_true
  intro k hk hne
  have hk_u : k < u := by
    have := hk
    rw [List.length_take] at this
    omega
  have hk_pi : k < pi.length := by omega
  have hk_pt : k < (handle_lookup_pair input table u).2.length := by omega
  have hgetD : (((handle_lookup_pair input table u).1.zip
      (handle_lookup_pair input table u).2).take u).getD k (0, 0) =
      ((handle_lookup_pair input table u).1.getD k 0,
        (handle_lookup_pair input table u).2.getD k 0) :=
    zip_take_getD _ _ u k hk_u (by rw [hfst]; omega) hk_pt
  rw [hgetD] at hne
  simp only at hne
  have hres := hmain k hk_u hne
  constructor
  · intro hk0
    exact absurd hk0 (by omega)
  · intro hkpos
    have hgetD1 : (((handle_lookup_pair input table u).1.zip
        (handle_lookup_pair input table u).2).take u).getD (k - 1) (0, 0) =
        ((handle_lookup_pair input table u).1.getD (k - 1) 0,
          (handle_lookup_pair input table u).2.getD (k - 1) 0) :=
      zip_take_getD _ _ u (k - 1) (by omega) (by rw [hfst]; omega) (by omega)
    rw [hgetD, hgetD1]
    simp only
    rw [hfst]
    exact hres.2

/-- Witness for C1 at a concrete instance: input `[1, 1, 2, 9]`,
table `[2, 1, 3, 7]`, prefix length 3 (every prefix input value 1, 1, 2
appears in the table prefix 2, 1, 3). -/
theorem handle_lookup_pair_continuity_witness :
    ([1, 1, 2, 9] : List Nat).length = ([2, 1, 3, 7] : List Nat).length ∧
    (∀ r < 3,
      (handle_lookup_pair [1, 1, 2, 9] [2, 1, 3, 7] 3).1.getD r 0 ≠
        (handle_lookup_pair [1, 1, 2, 9] [2, 1, 3, 7] 3).2.getD r 0 →
      0 < r ∧
        (handle_lookup_pair [1, 1, 2, 9] [2, 1, 3, 7] 3).1.getD r 0 =
          (handle_lookup_pair [1, 1, 2, 9] [2, 1, 3, 7] 3).1.getD (r - 1) 0) ∧
    checkLoop
      (((handle_lookup_pair [1, 1, 2, 9] [2, 1, 3, 7] 3).1.zip
          (handle_lookup_pair [1, 1, 2, 9] [2, 1, 3, 7] 3).2).take 3) none =
      true :=
  ⟨by decide,
    handle_lookup_pair_continuity [1, 1, 2, 9] [2, 1, 3, 7] 3 (by decide)
      (by decide) (by decide)⟩

/-! ## Permutation argument builder (lib.rs 655-744)

The per-chunk computation inside `permutation_products_handler`: the
denominator accumulation, the batch inversion (the `ff` crate inverts each
nonzero element in place and skips zeros, which matches the junk-value
convention `0⁻¹ = 0` of a Lean `Field`), the numerator pass with the
`delta_omega` state, and the shift-then-multiply running-product scan with
the accumulator `tmp` carried across chunks.  `DELTA` and `omega` are
abstract field parameters. -/

section PermutationBuilder

variable {K : Type} [Field K]

/-- Denominator loop body for one column (lib.rs 698-702):
`modified_values[i] *= beta * permuted_column_values[i] + gamma + values[i]`. -/
def denominatorColumnPass (beta gamma : K) (size : Nat) (v p mv : List K) :
    List K :=
  (List.range size).foldl
    (fun acc i =>
      acc.set i (acc.getD i 0 * (beta * p.getD i 0 + gamma + v.getD i 0)))
    mv

/-- Denominator accumulation over the chunk's columns (lib.rs 692-703),
starting from `modified_values` initialised to all ones.  Each element of
`cols` is a pair (column values, permuted column values). -/
def buildDenominator (beta gamma : K) (size : Nat) (cols : List (List K × List K)) :
    List K :=
  cols.foldl (fun mv vp => denominatorColumnPass beta gamma size vp.1 vp.2 mv)
    (List.replicate size 1)

/-- Numerator loop body for one column (lib.rs 716-720): multiply each row by
`delta_omega * beta + gamma + values[i]`, advancing `delta_omega` by `omega`
after every row. -/
def numeratorColumnPass (beta gamma omega : K) (size : Nat) (v : List K)
    (acc : List K × K) : List K × K :=
  (List.range size).foldl
    (fun p i =>
      (p.1.set i (p.1.getD i 0 * (p.2 * beta + gamma + v.getD i 0)), p.2 * omega))
    acc

/-- Numerator pass over the chunk's columns (lib.rs 710-722): after each
column, `delta_omega` advances by `DELTA`. -/
def numeratorPass (beta gamma omega delta : K) (size : Nat) (cols : List (List K))
    (acc : List K × K) : List K × K :=
  cols.foldl
    (fun acc v =>
      let acc := numeratorColumnPass beta gamma omega size v acc
      (acc.1, acc.2 * delta))
    acc

/-- Embedding of one chunk of `permutation_products_handler` (lib.rs
685-725): `delta_omega` starts at `DELTA ^ (chunkIdx * chunkLen)`; the
result is the pre-scan `modified_values` vector. -/
def permutationChunk (beta gamma omega delta : K) (chunkIdx chunkLen size : Nat)
    (cols : List (List K × List K)) : List K :=
  let delta_omega := delta ^ (chunkIdx * chunkLen)
  let den := buildDenominator beta gamma size cols
  let inv := den.map (fun x => x⁻¹)
  (numeratorPass beta gamma omega delta size (cols.map (fun vp => vp.1))
    (inv, delta_omega)).1

/-- One chunk of the running-product scan (lib.rs 730-733):
`swap(tmp, z[i]); tmp = tmp * z[i]`. -/
def scanChunk (size : Nat) (z : List K) (tmp : K) : List K × K :=
  (List.range size).foldl
    (fun p i => (p.1.set i p.2, p.1.getD i 0 * p.2))
    (z, tmp)

/-- Blinding-row overwrite used only when `ADD_RANDOM` holds (lib.rs
737-741); dead code since `ADD_RANDOM = false`. -/
def blindRows (z : List K) (unusable : Nat) (rand : List K) : List K :=
  z.take (unusable + 1) ++ rand.take (z.length - (unusable + 1))

/-- Scan over all chunks (lib.rs 728-744): the accumulator `tmp` is
initialised to one once, and after each chunk it is reset to the scanned
value at `unusable_rows_start` before the next chunk starts. -/
def scanChunks (size unusable : Nat) : List (List K) → K → List (List K) →
    List (List K)
  | _, _, [] => []
  | rand, tmp, z :: rest =>
      let z2 := (scanChunk size z tmp).1
      let tmp2 := z2.getD unusable 0
      let z3 := if ADD_RANDOM then blindRows z2 unusable (rand.headD []) else z2
      z3 :: scanChunks size unusable (rand.tailD []) tmp2 rest

/-- Carry value entering the scan after processing a list of chunks. -/
def scanCarry (size unusable : Nat) : K → List (List K) → K
  | tmp, [] => tmp
  | tmp, z :: rest =>
      scanCarry size unusable ((scanChunk size z tmp).1.getD unusable 0) rest

theorem take_succ_prod (z : List K) (n : Nat) (hn : n < z.length) :
    (z.take (n + 1)).prod = (z.take n).prod * z.getD n 0 := by
  rw [List.take_succ, List.prod_append, List.getElem?_eq_getElem hn]
  simp [List.getD_eq_getElem?_getD, List.getElem?_eq_getElem hn]

theorem scanChunk_spec (z : List K) (tmp : K) (n : Nat) (hn : n ≤ z.length) :
    ((List.range n).foldl (fun p i => (p.1.set i p.2, p.1.getD i 0 * p.2))
        (z, tmp)).1.length = z.length ∧
    (∀ j, n ≤ j →
      ((List.range n).foldl (fun p i => (p.1.set i p.2, p.1.getD i 0 * p.2))
        (z, tmp)).1.getD j 0 = z.getD j 0) ∧
    (∀ j, j < n →
      ((List.range n).foldl (fun p i => (p.1.set i p.2, p.1.getD i 0 * p.2))
        (z, tmp)).1.getD j 0 = (z.take j).prod * tmp) ∧
    ((List.range n).foldl (fun p i => (p.1.set i p.2, p.1.getD i 0 * p.2))
        (z, tmp)).2 = (z.take n).prod * tmp := by
  induction n with
  | zero => simp
  | succ n ih =>
      obtain ⟨ihlen, ihhigh, ihlow, ihacc⟩ := ih (by omega)
      rw [List.range_succ, List.foldl_append, List.foldl_cons, List.foldl_nil]
      set res := (List.range n).foldl
        (fun p i => (p.1.set i p.2, p.1.getD i 0 * p.2)) (z, tmp) with hres
      refine ⟨by simp [ihlen], ?_, ?_, ?_⟩
      · intro j hj
        have hne : n ≠ j := by omega
        rw [List.getD_eq_getElem?_getD, List.getElem?_set_ne hne,
          ← List.getD_eq_getElem?_getD]
        exact ihhigh j (by omega)
      · intro j hj
        by_cases hjn : j = n
        · subst hjn
          have hjlen : j < res.1.length := by
            rw [ihlen]
            omega
          rw [List.getD_eq_getElem?_getD, List.getElem?_set_self hjlen]
          simpa using ihacc
        · have hne : n ≠ j := fun h => hjn h.symm
          rw [List.getD_eq_getElem?_getD, List.getElem?_set_ne hne,
            ← List.getD_eq_getElem?_getD]
          exact ihlow j (by omega)
      · rw [ihacc, ihhigh n (le_refl n), take_succ_prod z n (by omega)]
        ring

theorem scanChunk_getD (z : List K) (tmp : K) (size j : Nat)
    (hsize : size ≤ z.length) (hj : j < size) :
    (scanChunk size z tmp).1.getD j 0 = (z.take j).prod * tmp :=
  (scanChunk_spec z tmp size hsize).2.2.1 j hj

theorem scanChunk_length (z : List K) (tmp : K) (size : Nat)
    (hsize : size ≤ z.length) :
    (scanChunk size z tmp).1.length = z.length :=
  (scanChunk_spec z tmp size hsize).1

theorem scanChunks_getD (size unusable : Nat) (pz : List (List K))
    (rand : List (List K)) (tmp : K) (m : Nat) (hm : m < pz.length) :
    (scanChunks size unusable rand tmp pz).getD m [] =
      (scanChunk size (pz.getD m [])
        (scanCarry size unusable tmp (pz.take m))).1 := by
  induction pz generalizing rand tmp m with
  | nil => simp at hm
  | cons z rest ih =>
      unfold scanChunks
      have hAR : ADD_RANDOM = false := rfl
      rw [hAR]
      simp only [Bool.false_eq_true, if_false]
      rcases m with _ | m
      · simp [scanCarry]
      · rw [List.getD_cons_succ]
        rw [ih (rand.tailD []) _ m (by simpa using Nat.lt_of_succ_lt_succ hm)]
        simp [scanCarry]

end PermutationBuilder

section PermutationBuilderLemmas

variable {K : Type} [Field K]

theorem denomPass_spec (beta gamma : K) (v p : List K) (mv : List K) (n : Nat)
    (hn : n ≤ mv.length) :
    ((List.range n).foldl (fun acc i =>
        acc.set i (acc.getD i 0 * (beta * p.getD i 0 + gamma + v.getD i 0)))
      mv).length = mv.length ∧
    (∀ j, n ≤ j →
      ((List.range n).foldl (fun acc i =>
          acc.set i (acc.getD i 0 * (beta * p.getD i 0 + gamma + v.getD i 0)))
        mv).getD j 0 = mv.getD j 0) ∧
    (∀ j, j < n →
      ((List.range n).foldl (fun acc i =>
          acc.set i (acc.getD i 0 * (beta * p.getD i 0 + gamma + v.getD i 0)))
        mv).getD j 0 =
        mv.getD j 0 * (beta * p.getD j 0 + gamma + v.getD j 0)) := by
  induction n with
  | zero => simp
  | succ n ih =>
      obtain ⟨ihlen, ihhigh, ihlow⟩ := ih (by omega)
      rw [List.range_succ, List.foldl_append, List.foldl_cons, List.foldl_nil]
      set res := (List.range n).foldl (fun acc i =>
        acc.set i (acc.getD i 0 * (beta * p.getD i 0 + gamma + v.getD i 0))) mv
        with hres
      refine ⟨by simp [ihlen], ?_, ?_⟩
      · intro j hj
        have hne : n ≠ j := by omega
        rw [List.getD_eq_getElem?_getD, List.getElem?_set_ne hne,
          ← List.getD_eq_getElem?_getD]
        exact ihhigh j (by omega)
      · intro j hj
        by_cases hjn : j = n
        · subst hjn
          have hjlen : j < res.length := by
            rw [ihlen]
            omega
          rw [List.getD_eq_getElem?_getD, List.getElem?_set_self hjlen]
          simpa using congrArg (· * (beta * p.getD j 0 + gamma + v.getD j 0))
            (ihhigh j (le_refl j))
        · have hne : n ≠ j := fun h => hjn h.symm
          rw [List.getD_eq_getElem?_getD, List.getElem?_set_ne hne,
            ← List.getD_eq_getElem?_getD]
          exact ihlow j (by omega)

theorem buildDenominator_general (beta gamma : K) (size : Nat)
    (cols : List (List K × List K)) (mv : List K) (hlen : mv.length = size) :
    (cols.foldl (fun mv vp => denominatorColumnPass beta gamma size vp.1 vp.2 mv)
      mv).length = size ∧
    (∀ j, j < size →
      (cols.foldl (fun mv vp => denominatorColumnPass beta gamma size vp.1 vp.2 mv)
        mv).getD j 0 =
        mv.getD j 0 *
          (cols.map (fun vp => beta * vp.2.getD j 0 + gamma + vp.1.getD j 0)).prod) := by
  induction cols generalizing mv with
  | nil => simp [hlen]
  | cons vp rest ih =>
      rw [List.foldl_cons]
      have hspec := denomPass_spec beta gamma vp.1 vp.2 mv size (by omega)
      have hlen1 : (denominatorColumnPass beta gamma size vp.1 vp.2 mv).length =
          size := by
        rw [show denominatorColumnPass beta gamma size vp.1 vp.2 mv =
          (List.range size).foldl (fun acc i =>
            acc.set i (acc.getD i 0 * (beta * vp.2.getD i 0 + gamma +
              vp.1.getD i 0))) mv from rfl, hspec.1, hlen]
      obtain ⟨ihlen, ihget⟩ := ih _ hlen1
      refine ⟨ihlen, ?_⟩
      intro j hj
      rw [ihget j hj]
      have : (denominatorColumnPass beta gamma size vp.1 vp.2 mv).getD j 0 =
          mv.getD j 0 * (beta * vp.2.getD j 0 + gamma + vp.1.getD j 0) :=
        hspec.2.2 j hj
      rw [this, List.map_cons, List.prod_cons]
      ring

theorem replicate_one_getD (size j : Nat) (hj : j < size) :
    (List.replicate size (1 : K)).getD j 0 = 1 := by
  rw [List.getD_eq_getElem?_getD, List.getElem?_replicate]
  simp [hj]

theorem buildDenominator_getD (beta gamma : K) (size : Nat)
    (cols : List (List K × List K)) (j : Nat) (hj : j < size) :
    (buildDenominator beta gamma size cols).getD j 0 =
      (cols.map (fun vp => beta * vp.2.getD j 0 + gamma + vp.1.getD j 0)).prod := by
  unfold buildDenominator
  rw [(buildDenominator_general beta gamma size cols _ (by simp)).2 j hj,
    replicate_one_getD size j hj, one_mul]

theorem buildDenominator_length (beta gamma : K) (size : Nat)
    (cols : List (List K × List K)) :
    (buildDenominator beta gamma size cols).length = size :=
  (buildDenominator_general beta gamma size cols _ (by simp)).1

theorem numColPass_spec (beta gamma omega : K) (v : List K) (mv : List K)
    (dw : K) (n : Nat) (hn : n ≤ mv.length) :
    ((List.range n).foldl (fun p i =>
        (p.1.set i (p.1.getD i 0 * (p.2 * beta + gamma + v.getD i 0)),
          p.2 * omega)) (mv, dw)).1.length = mv.length ∧
    ((List.range n).foldl (fun p i =>
        (p.1.set i (p.1.getD i 0 * (p.2 * beta + gamma + v.getD i 0)),
          p.2 * omega)) (mv, dw)).2 = dw * omega ^ n ∧
    (∀ j, n ≤ j →
      ((List.range n).foldl (fun p i =>
          (p.1.set i (p.1.getD i 0 * (p.2 * beta + gamma + v.getD i 0)),
            p.2 * omega)) (mv, dw)).1.getD j 0 = mv.getD j 0) ∧
    (∀ j, j < n →
      ((List.range n).foldl (fun p i =>
          (p.1.set i (p.1.getD i 0 * (p.2 * beta + gamma + v.getD i 0)),
            p.2 * omega)) (mv, dw)).1.getD j 0 =
        mv.getD j 0 * (dw * omega ^ j * beta + gamma + v.getD j 0)) := by
  induction n with
  | zero => simp
  | succ n ih =>
      obtain ⟨ihlen, ihacc, ihhigh, ihlow⟩ := ih (by omega)
      rw [List.range_succ, List.foldl_append, List.foldl_cons, List.foldl_nil]
      set res := (List.range n).foldl (fun p i =>
        (p.1.set i (p.1.getD i 0 * (p.2 * beta + gamma + v.getD i 0)),
          p.2 * omega)) (mv, dw) with hres
      refine ⟨by simp [ihlen], ?_, ?_, ?_⟩
      · rw [ihacc, pow_succ]
        ring
      · intro j hj
        have hne : n ≠ j := by omega
        rw [List.getD_eq_getElem?_getD, List.getElem?_set_ne hne,
          ← List.getD_eq_getElem?_getD]
        exact ihhigh j (by omega)
      · intro j hj
        by_cases hjn : j = n
        · subst hjn
          have hjlen : j < res.1.length := by
            rw [ihlen]
            omega
          rw [List.getD_eq_getElem?_getD, List.getElem?_set_self hjlen]
          rw [ihhigh j (le_refl j), ihacc]
          simp
        · have hne : n ≠ j := fun h => hjn h.symm
          rw [List.getD_eq_getElem?_getD, List.getElem?_set_ne hne,
            ← List.getD_eq_getElem?_getD]
          exact ihlow j (by omega)

/-- Value of `delta_omega`-dependent numerator factors over the remaining
columns, threading the `delta_omega` state exactly like the code. -/
def numFactor (beta gamma omega delta : K) (size r : Nat) : K → List (List K) → K
  | _, [] => 1
  | dw, v :: rest =>
      (dw * omega ^ r * beta + gamma + v.getD r 0) *
        numFactor beta gamma omega delta size r (dw * omega ^ size * delta) rest

theorem numFactor_cons (beta gamma omega delta : K) (size r : Nat) (dw : K)
    (v : List K) (rest : List (List K)) :
    numFactor beta gamma omega delta size r dw (v :: rest) =
      (dw * omega ^ r * beta + gamma + v.getD r 0) *
        numFactor beta gamma omega delta size r (dw * omega ^ size * delta) rest :=
  rfl

theorem numeratorPass_spec (beta gamma omega delta : K) (size : Nat)
    (cols : List (List K)) (mv : List K) (dw : K) (hlen : mv.length = size) :
    (numeratorPass beta gamma omega delta size cols (mv, dw)).1.length = size ∧
    (∀ j, j < size →
      (numeratorPass beta gamma omega delta size cols (mv, dw)).1.getD j 0 =
        mv.getD j 0 * numFactor beta gamma omega delta size j dw cols) := by
  induction cols generalizing mv dw with
  | nil => simp [numeratorPass, numFactor, hlen]
  | cons v rest ih =>
      have hspec := numColPass_spec beta gamma omega v mv dw size (by omega)
      have hstep : numeratorPass beta gamma omega delta size (v :: rest) (mv, dw) =
          numeratorPass beta gamma omega delta size rest
            ((numeratorColumnPass beta gamma omega size v (mv, dw)).1,
              (numeratorColumnPass beta gamma omega size v (mv, dw)).2 * delta) :=
        rfl
      have hlen1 : (numeratorColumnPass beta gamma omega size v (mv, dw)).1.length =
          size := by
        rw [show numeratorColumnPass beta gamma omega size v (mv, dw) =
          (List.range size).foldl (fun p i =>
            (p.1.set i (p.1.getD i 0 * (p.2 * beta + gamma + v.getD i 0)),
              p.2 * omega)) (mv, dw) from rfl, hspec.1, hlen]
      obtain ⟨ihlen, ihget⟩ := ih _ _ hlen1
      rw [hstep]
      refine ⟨ihlen, ?_⟩
      intro j hj
      rw [ihget j hj]
      have hget1 : (numeratorColumnPass beta gamma omega size v (mv, dw)).1.getD j 0 =
          mv.getD j 0 * (dw * omega ^ j * beta + gamma + v.getD j 0) :=
        hspec.2.2.2 j hj
      have hacc1 : (numeratorColumnPass beta gamma omega size v (mv, dw)).2 =
          dw * omega ^ size :=
        hspec.2.1
      rw [hget1, hacc1, numFactor_cons]
      ring

theorem numFactor_closed (beta gamma omega delta : K) (size r : Nat)
    (dw0 : K) (cols : List (List K)) :
    numFactor beta gamma omega delta size r dw0 cols =
      ((List.range cols.length).map (fun c =>
        dw0 * (omega ^ size * delta) ^ c * omega ^ r * beta + gamma +
          (cols.getD c []).getD r 0)).prod := by
  induction cols generalizing dw0 with
  | nil => simp [numFactor]
  | cons v rest ih =>
      unfold numFactor
      rw [List.length_cons, List.range_succ_eq_map, List.map_cons, List.prod_cons]
      have hmap : (List.map Nat.succ (List.range rest.length)).map (fun c =>
          dw0 * (omega ^ size * delta) ^ c * omega ^ r * beta + gamma +
            ((v :: rest).getD c []).getD r 0) =
          (List.range rest.length).map (fun c =>
            (dw0 * omega ^ size * delta) * (omega ^ size * delta) ^ c *
              omega ^ r * beta + gamma + (rest.getD c []).getD r 0) := by
        rw [List.map_map]
        apply List.map_congr_left
        intro c _
        simp only [Function.comp_apply, List.getD_cons_succ, Nat.succ_eq_add_one,
          pow_succ]
        ring
      rw [hmap, ih]
      simp only [pow_zero, mul_one, List.getD_cons_zero]

theorem map_inv_getD (den : List K) (j : Nat) (hj : j < den.length) :
    (den.map (fun x => x⁻¹)).getD j 0 = (den.getD j 0)⁻¹ := by
  rw [List.getD_eq_getElem?_getD, List.getElem?_map,
    List.getElem?_eq_getElem hj]
  simp [List.getD_eq_getElem?_getD, List.getElem?_eq_getElem hj]

end PermutationBuilderLemmas

section PermutationClaims

instance : Fact (Nat.Prime 5) := ⟨by norm_num⟩

variable {K : Type} [Field K]

theorem permutationChunk_getD (beta gamma omega delta : K)
    (chunkIdx chunkLen size : Nat) (cols : List (List K × List K)) (r : Nat)
    (hr : r < size) :
    (permutationChunk beta gamma omega delta chunkIdx chunkLen size cols).getD r 0 =
      ((List.range cols.length).map (fun c =>
        delta ^ (chunkIdx * chunkLen + c) * omega ^ (c * size + r) * beta + gamma +
          (cols.getD c ([], [])).1.getD r 0)).prod /
      (cols.map (fun vp => beta * vp.2.getD r 0 + gamma + vp.1.getD r 0)).prod := by
  unfold permutationChunk
  have hinvlen : ((buildDenominator beta gamma size cols).map
      (fun x => x⁻¹)).length = size := by
    rw [List.length_map, buildDenominator_length]
  rw [(numeratorPass_spec beta gamma omega delta size
    (cols.map (fun vp => vp.1)) _ (delta ^ (chunkIdx * chunkLen)) hinvlen).2 r hr]
  rw [map_inv_getD _ r (by rw [buildDenominator_length]; exact hr)]
  rw [buildDenominator_getD beta gamma size cols r hr]
  rw [numFactor_closed]
  have hmapcols : (List.range (cols.map (fun vp => vp.1)).length).map (fun c =>
      delta ^ (chunkIdx * chunkLen) * (omega ^ size * delta) ^ c * omega ^ r *
        beta + gamma + ((cols.map (fun vp => vp.1)).getD c []).getD r 0) =
      (List.range cols.length).map (fun c =>
        delta ^ (chunkIdx * chunkLen + c) * omega ^ (c * size + r) * beta +
          gamma + (cols.getD c ([], [])).1.getD r 0) := by
    rw [List.length_map]
    apply List.map_congr_left
    intro c hc
    have hc' : c < cols.length := List.mem_range.mp hc
    have hget : ((cols.map (fun vp => vp.1)).getD c []) =
        (cols.getD c ([], [])).1 := by
      rw [List.getD_eq_getElem?_getD, List.getElem?_map,
        List.getElem?_eq_getElem hc', List.getD_eq_getElem?_getD,
        List.getElem?_eq_getElem hc']
      rfl
    rw [hget]
    ring
  rw [hmapcols, div_eq_mul_inv, mul_comm]

theorem scan_slot_values (size unusable : Nat) (pz rand : List (List K))
    (m j : Nat) (hm : m < pz.length) (hj : j < size)
    (hlen : size ≤ (pz.getD m []).length) :
    ((scanChunks size unusable rand 1 pz).getD m []).getD j 0 =
      ((pz.getD m []).take j).prod * scanCarry size unusable 1 (pz.take m) := by
  rw [scanChunks_getD size unusable pz rand 1 m hm,
    scanChunk_getD _ _ size j hlen hj]

/-- C3 counterexample: the claim as stated says every chunk's scanned slot
`j` holds the product of the chunk's pre-scan values strictly before `j`,
but the accumulator `tmp` is initialised once before the chunk loop and is
reset to `z[unusable_rows_start]` after each chunk, so slot 0 of the second
chunk holds the previous chunk's carried value 2, not the empty product 1
(over `ZMod 5`, size 2, `unusable_rows_start` 1, both chunks `[2, 3]`). -/
theorem permutation_scan_not_exclusive :
    ((scanChunks 2 1 ([] : List (List (ZMod 5))) 1 [[2, 3], [2, 3]]).getD 1
        []).getD 0 0 = 2 ∧
    ((([2, 3] : List (ZMod 5)).take 0).prod = 1) ∧ (2 : ZMod 5) ≠ 1 := by
  decide

/-- C3 (amended): the pre-scan per-row value of each chunk is the product
over the chunk's columns of `delta_omega * beta + gamma + column_value[row]`
divided by the product of `beta * permuted_column[row] + gamma +
column_value[row]`, with `delta_omega = DELTA ^ (chunkIdx * chunkLen + c) *
omega ^ (c * size + row)` for column `c` (start `DELTA ^ (chunkIdx *
chunkLen)`, times `omega` per row, times `DELTA` per column); the forward
scan leaves slot `j` holding the carry entering the chunk (one for the first
chunk, the previous chunk's scanned value at `unusable_rows_start`
otherwise) times the product of the chunk's pre-scan values strictly before
`j`. -/
theorem permutation_prescan_and_scan :
    (∀ (beta gamma omega delta : K) (chunkIdx chunkLen size : Nat)
        (cols : List (List K × List K)) (r : Nat), r < size →
      (permutationChunk beta gamma omega delta chunkIdx chunkLen size
          cols).getD r 0 =
        ((List.range cols.length).map (fun c =>
          delta ^ (chunkIdx * chunkLen + c) * omega ^ (c * size + r) * beta +
            gamma + (cols.getD c ([], [])).1.getD r 0)).prod /
        (cols.map (fun vp =>
          beta * vp.2.getD r 0 + gamma + vp.1.getD r 0)).prod) ∧
    (∀ (size unusable : Nat) (pz rand : List (List K)) (m j : Nat),
      m < pz.length → j < size → size ≤ (pz.getD m []).length →
      ((scanChunks size unusable rand 1 pz).getD m []).getD j 0 =
        ((pz.getD m []).take j).prod * scanCarry size unusable 1 (pz.take m)) :=
  ⟨fun beta gamma omega delta chunkIdx chunkLen size cols r hr =>
    permutationChunk_getD beta gamma omega delta chunkIdx chunkLen size cols r hr,
    fun size unusable pz rand m j hm hj hlen =>
      scan_slot_values size unusable pz rand m j hm hj hlen⟩

/-- Witness for C3's amended theorem at concrete inputs over `ZMod 5`. -/
theorem permutation_prescan_and_scan_witness :
    ((1 : Nat) < 2 ∧
      (permutationChunk (1 : ZMod 5) 0 2 3 1 2 2 [([1, 2], [3, 4])]).getD 1 0 =
        ((List.range 1).map (fun c =>
          (3 : ZMod 5) ^ (1 * 2 + c) * 2 ^ (c * 2 + 1) * 1 + 0 +
            (([([1, 2], [3, 4])].getD c ([], []))).1.getD 1 0)).prod /
        ([([1, 2], [3, 4])].map (fun vp =>
          (1 : ZMod 5) * vp.2.getD 1 0 + 0 + vp.1.getD 1 0)).prod) ∧
    ((scanChunks 2 1 ([] : List (List (ZMod 5))) 1 [[2, 3], [2, 3]]).getD 1
        []).getD 1 0 =
      (([2, 3] : List (ZMod 5)).take 1).prod *
        scanCarry 2 1 1 (([[2, 3], [2, 3]] : List (List (ZMod 5))).take 1) :=
  ⟨⟨by decide,
    (permutation_prescan_and_scan (K := ZMod 5)).1 1 0 2 3 1 2 2
      [([1, 2], [3, 4])] 1 (by decide)⟩,
    (permutation_prescan_and_scan (K := ZMod 5)).2 2 1 [[2, 3], [2, 3]] [] 1 1
      (by decide) (by decide) (by decide)⟩

/-- C5 counterexample: with `ADD_RANDOM = false` the rows past
`unusable_rows_start` are left untouched by the loop at lib.rs 737-741, so
they keep their running-scan values rather than being held at the value of
row `unusable_rows_start`: over `ZMod 5` with one chunk `[2, 3]`, size 2,
`unusable_rows_start = 0`, row 1 holds 2 while row 0 holds 1. -/
theorem permutation_blinding_rows_not_constant :
    ((scanChunks 2 0 ([] : List (List (ZMod 5))) 1 [[2, 3]]).getD 0
        []).getD 1 0 = 2 ∧
    ((scanChunks 2 0 ([] : List (List (ZMod 5))) 1 [[2, 3]]).getD 0
        []).getD 0 0 = 1 ∧
    (2 : ZMod 5) ≠ 1 := by
  decide

/-- C5 (amended): the blinding toggle `ADD_RANDOM` is the compile-time
constant `false`, so the randomisation branch never runs and every row
strictly past `unusable_rows_start` keeps its running-scan value: the carry
entering the chunk times the product of the chunk's pre-scan values at
slots strictly before it (not the chunk's final product held constant). -/
theorem permutation_rows_past_unusable_hold_scan_values :
    ADD_RANDOM = false ∧
    (∀ (size unusable : Nat) (pz rand : List (List K)) (m j : Nat),
      m < pz.length → unusable < j → j < size → size ≤ (pz.getD m []).length →
      ((scanChunks size unusable rand 1 pz).getD m []).getD j 0 =
        ((pz.getD m []).take j).prod * scanCarry size unusable 1 (pz.take m)) :=
  ⟨rfl, fun size unusable pz rand m j hm _ hj hlen =>
    scan_slot_values size unusable pz rand m j hm hj hlen⟩

/-- Witness for C5's amended theorem at a concrete input over `ZMod 5`. -/
theorem permutation_rows_past_unusable_hold_scan_values_witness :
    ADD_RANDOM = false ∧
    ((0 : Nat) < 1 ∧
      ((scanChunks 2 0 ([] : List (List (ZMod 5))) 1 [[2, 4]]).getD 0
          []).getD 1 0 =
        (([2, 4] : List (ZMod 5)).take 1).prod *
          scanCarry (K := ZMod 5) 2 0 1 []) :=
  ⟨(permutation_rows_past_unusable_hold_scan_values (K := ZMod 5)).1,
    by decide,
    (permutation_rows_past_unusable_hold_scan_values (K := ZMod 5)).2 2 0
      [[2, 4]] [] 0 1 (by decide) (by decide) (by decide) (by decide)⟩

end PermutationClaims

/-! ## Expression evaluation engine (`evaluate_prove_expr`, lib.rs 1179-1451)

Device buffers are identifiers (`Nat`); the opaque device kernels and the
fresh allocations are recorded as a log of `DevOp` events in the evaluation
context, so "no device kernel call and no device buffer allocation" is
visible as an unchanged log.  `ctx.extended_allocator` is the free-list the
code pops from the back (`Vec::pop`) and pushes to the back. -/

section ExpressionEngine

inductive Bop where
  | Sum
  | Product
deriving DecidableEq

inductive ProveExpressionUnit where
  | fixed (column_index : Nat) (rotation : Int)
  | advice (column_index : Nat) (rotation : Int)
  | inst (column_index : Nat) (rotation : Int)
deriving DecidableEq

/-- Halo2's `ProveExpression` tree; the `BTreeMap<u32, F>` of challenge
powers is an association list. -/
inductive ProveExpression (F : Type) where
  | unit (u : ProveExpressionUnit)
  | op (l r : ProveExpression F) (o : Bop)
  | y (ys : List (Nat × F))
  | scale (l : ProveExpression F) (ys : List (Nat × F))
deriving DecidableEq

/-- Device operations issued during evaluation, as recorded in the log. -/
inductive DevOp (F : Type) where
  | allocBuffer (id : Nat)
  | fieldMulSumVec (res : Nat) (terms : List (Nat × Int × Option F)) (sz : Nat)
  | addConstantAtZero (res : Nat) (c : F)
  | extendedPrepare (buf : Nat)
  | nttRaw (buf tmp : Nat)
  | fieldSum (l r : Nat) (sz : Nat)
  | fieldMul (l r : Nat) (sz : Nat)
  | fieldOpMulScalar (buf : Nat) (v : F) (sz : Nat)
deriving DecidableEq

/-- Evaluation context `EvalHContext` (lib.rs 878-888) restricted to the
fields the evaluator reads or writes, plus the allocation counter and the
device-operation log of the embedding. -/
structure EvalCtx (F : Type) where
  y : List F
  extendedAllocator : List Nat
  size : Nat
  extendedSize : Nat
  nextBuf : Nat
  log : List (DevOp F)
deriving DecidableEq

def addLog {F : Type} (ctx : EvalCtx F) (op : DevOp F) : EvalCtx F :=
  { ctx with log := ctx.log ++ [op] }

def pushExt {F : Type} (ctx : EvalCtx F) (buf : Nat) : EvalCtx F :=
  { ctx with extendedAllocator := ctx.extendedAllocator ++ [buf] }

/-- Embedding of `ctx.extended_allocator.pop()` followed by an
`alloc_device_buffer::<F>(ctx.extended_size)` when the free-list is empty
(the recurring pattern at lib.rs 1184-1189, 1203-1209, 1263-1269). -/
def popOrAllocExt {F : Type} (ctx : EvalCtx F) : Nat × EvalCtx F :=
  match ctx.extendedAllocator.getLast? with
  | some b => (b, { ctx with extendedAllocator := ctx.extendedAllocator.dropLast })
  | none =>
      (ctx.nextBuf,
        { ctx with
            nextBuf := ctx.nextBuf + 1
            log := ctx.log ++ [DevOp.allocBuffer ctx.nextBuf] })

/-- Embedding of `do_extended_fft` (lib.rs 1196-1236): pop (or allocate) a temp buffer,
run `extended_prepare` and `ntt_raw`, push the temp buffer back. -/
def do_extended_fft {F : Type} (ctx : EvalCtx F) (data : Nat) : EvalCtx F :=
  let r := popOrAllocExt ctx
  let ctx := addLog r.2 (DevOp.extendedPrepare data)
  let ctx := addLog ctx (DevOp.nttRaw data r.1)
  pushExt ctx r.1

/-- Embedding of `EvalResult` (lib.rs 1238-1245): a lazy borrowed linear combination (with
degree, term list and optional constant) or a materialised buffer. -/
inductive EvalResult (F : Type) where
  | sumBorrow (deg : Nat) (terms : List (Nat × Int × Option F)) (c : Option F)
  | single (deg : Nat) (buf : Nat)
deriving DecidableEq

def EvalResult.deg {F : Type} : EvalResult F → Nat
  | .sumBorrow d _ _ => d
  | .single d _ => d

def EvalResult.isBorrow {F : Type} : EvalResult F → Bool
  | .sumBorrow _ _ _ => true
  | .single _ _ => false

/-- Embedding of `EvalResult::eval` (lib.rs 1255-1289): force to a materialised buffer of
`target_deg`, returning `none` where the Rust asserts would panic. -/
def evalResultEval {F : Type} (r : EvalResult F) (target_deg : Nat)
    (ctx : EvalCtx F) : Option (Nat × EvalCtx F) :=
  match r with
  | .sumBorrow deg arr c =>
      if deg = 1 then
        let pr := popOrAllocExt ctx
        let ctx := addLog pr.2 (DevOp.fieldMulSumVec pr.1 arr pr.2.size)
        let ctx := match c with
          | some v => addLog ctx (DevOp.addConstantAtZero pr.1 v)
          | none => ctx
        if deg ≠ target_deg then
          if target_deg = 4 then some (pr.1, do_extended_fft ctx pr.1) else none
        else some (pr.1, ctx)
      else none
  | .single deg buf =>
      if deg ≠ target_deg then
        if target_deg = 4 then some (buf, do_extended_fft ctx buf) else none
      else some (buf, ctx)

/-- Embedding of `EvalResult::merge` (lib.rs 1311-1330); `none` models the
`unreachable!` and the degree assert. -/
def evalResultMerge {F : Type} [Add F] (a b : EvalResult F) :
    Option (EvalResult F) :=
  match a, b with
  | .sumBorrow deg l lc, .sumBorrow rdeg r rc =>
      if deg = rdeg then
        some (.sumBorrow deg (l ++ r)
          (match lc, rc with
            | some x, some x2 => some (x + x2)
            | some x, none => some x
            | none, rc => rc))
      else none
  | _, _ => none

/-- Embedding of `EvalResult::scale` (lib.rs 1332-1358). -/
def evalResultScale {F : Type} [Mul F] (r : EvalResult F) (v : F)
    (ctx : EvalCtx F) : EvalResult F × EvalCtx F :=
  match r with
  | .sumBorrow deg arr c =>
      (.sumBorrow deg
        (arr.map (fun t => (t.1, t.2.1,
          match t.2.2 with
          | some c0 => some (c0 * v)
          | none => some v)))
        (c.map (fun x => v * x)), ctx)
  | .single deg buf =>
      (.single deg buf, addLog ctx (DevOp.fieldOpMulScalar buf v (ctx.size * deg)))

/-- Embedding of `eval_ys` (lib.rs 1361-1369): grow the cached powers of `y` up to the
highest required order, then fold the weighted sum; `none` models the
`unwrap` panic on an empty map. -/
def growY {F : Type} [Mul F] [Inhabited F] (y : List F) (max_y_order : Nat) :
    List F :=
  if y.length ≤ max_y_order then
    growY (y ++ [y.getD 1 default * y.getLastD default]) max_y_order
  else y
termination_by max_y_order + 1 - y.length
decreasing_by
  simp_wf
  omega

def eval_ys {F : Type} [CommRing F] [Inhabited F] (ys : List (Nat × F))
    (ctx : EvalCtx F) : Option (F × EvalCtx F) :=
  match (ys.map (fun p => p.1)).max? with
  | none => none
  | some m =>
      let ypow := growY ctx.y m
      some (ys.foldl (fun acc p => acc + ypow.getD p.1 0 * p.2) 0,
        { ctx with y := ypow })

/-- Embedding of `evaluate_prove_expr` (lib.rs 1371-1451). -/
def evaluate_prove_expr {F : Type} [CommRing F] [Inhabited F]
    (fixed_buf advice_buf instance_buf : List Nat) :
    ProveExpression F → EvalCtx F → Option (EvalResult F × EvalCtx F)
  | .unit u, ctx =>
      let sr : Nat × Int := match u with
        | .fixed ci rot => (fixed_buf.getD ci 0, rot)
        | .advice ci rot => (advice_buf.getD ci 0, rot)
        | .inst ci rot => (instance_buf.getD ci 0, rot)
      some (.sumBorrow 1 [(sr.1, sr.2, none)] none, ctx)
  | .op l r o, ctx => do
      let lr ← evaluate_prove_expr fixed_buf advice_buf instance_buf l ctx
      let rr ← evaluate_prove_expr fixed_buf advice_buf instance_buf r lr.2
      let l_deg := lr.1.deg
      let r_deg := rr.1.deg
      match o with
      | .Sum =>
          if l_deg = r_deg ∧ lr.1.isBorrow ∧ rr.1.isBorrow then
            if l_deg = 1 then do
              let m ← evalResultMerge lr.1 rr.1
              some (m, rr.2)
            else none
          else do
            let lb ← evalResultEval lr.1 4 rr.2
            let rb ← evalResultEval rr.1 4 lb.2
            let ctx := addLog rb.2 (DevOp.fieldSum lb.1 rb.1 rb.2.extendedSize)
            some (.single 4 lb.1, pushExt ctx rb.1)
      | .Product => do
          let lb ← evalResultEval lr.1 4 rr.2
          let rb ← evalResultEval rr.1 4 lb.2
          let ctx := addLog rb.2 (DevOp.fieldMul lb.1 rb.1 rb.2.extendedSize)
          some (.single 4 lb.1, pushExt ctx rb.1)
  | .y ys, ctx => do
      let c ← eval_ys ys ctx
      some (.sumBorrow 1 [] (some c.1), c.2)
  | .scale l ys, ctx => do
      let lr ← evaluate_prove_expr fixed_buf advice_buf instance_buf l ctx
      let c ← eval_ys ys lr.2
      let sr := evalResultScale lr.1 c.1 c.2
      some (sr.1, sr.2)

end ExpressionEngine

section ExpressionEngineClaims

/-- C2: in `evaluate_prove_expr`, a `Sum` node whose two operands evaluate
to Borrowed-sums of degree 1 returns their merged Borrowed-sum — term lists
concatenated, constants added — with the context exactly as the right
operand left it (hence no device kernel call and no device buffer
allocation for the node itself); a `Product` node forces both operands to
materialised degree-4 buffers via `EvalResult::eval` and issues one device
element-wise multiply at the extended size, returning `Single(4, lb)`;
forcing a degree-1 materialised operand applies the extended-domain
transform, while a degree-4 operand passes through unchanged. -/
theorem evaluate_prove_expr_sum_lazy_product_forced {F : Type} [CommRing F]
    [Inhabited F] :
    (∀ (fixed_buf advice_buf instance_buf : List Nat)
        (l r : ProveExpression F) (ctx ctx1 ctx2 : EvalCtx F)
        (lts rts : List (Nat × Int × Option F)) (lc rc : Option F),
      evaluate_prove_expr fixed_buf advice_buf instance_buf l ctx =
        some (.sumBorrow 1 lts lc, ctx1) →
      evaluate_prove_expr fixed_buf advice_buf instance_buf r ctx1 =
        some (.sumBorrow 1 rts rc, ctx2) →
      evaluate_prove_expr fixed_buf advice_buf instance_buf
          (.op l r .Sum) ctx =
        some (.sumBorrow 1 (lts ++ rts)
          (match lc, rc with
            | some x, some x2 => some (x + x2)
            | some x, none => some x
            | none, rc2 => rc2), ctx2)) ∧
    (∀ (fixed_buf advice_buf instance_buf : List Nat)
        (l r : ProveExpression F) (ctx : EvalCtx F)
        (lres rres : EvalResult F) (ctx1 ctx2 ctx3 ctx4 : EvalCtx F)
        (lb rb : Nat),
      evaluate_prove_expr fixed_buf advice_buf instance_buf l ctx =
        some (lres, ctx1) →
      evaluate_prove_expr fixed_buf advice_buf instance_buf r ctx1 =
        some (rres, ctx2) →
      evalResultEval lres 4 ctx2 = some (lb, ctx3) →
      evalResultEval rres 4 ctx3 = some (rb, ctx4) →
      evaluate_prove_expr fixed_buf advice_buf instance_buf
          (.op l r .Product) ctx =
        some (.single 4 lb,
          pushExt (addLog ctx4 (DevOp.fieldMul lb rb ctx4.extendedSize)) rb)) ∧
    (∀ (buf : Nat) (ctx : EvalCtx F),
      evalResultEval (EvalResult.single 1 buf) 4 ctx =
        some (buf, do_extended_fft ctx buf)) ∧
    (∀ (buf : Nat) (ctx : EvalCtx F),
      evalResultEval (EvalResult.single 4 buf) 4 ctx = some (buf, ctx)) := by
  refine ⟨?_, ?_, ?_, ?_⟩
  · intro fixed_buf advice_buf instance_buf l r ctx ctx1 ctx2 lts rts lc rc hl hr
    unfold evaluate_prove_expr
    rw [hl]
    simp only [Option.bind_eq_bind, Option.some_bind]
    rw [hr]
    simp only [Option.some_bind]
    simp [EvalResult.deg, EvalResult.isBorrow, evalResultMerge]
  · intro fixed_buf advice_buf instance_buf l r ctx lres rres ctx1 ctx2 ctx3
      ctx4 lb rb hl hr hlb hrb
    unfold evaluate_prove_expr
    rw [hl]
    simp only [Option.bind_eq_bind, Option.some_bind]
    rw [hr]
    simp only [Option.some_bind]
    rw [hlb]
    simp only [Option.some_bind]
    rw [hrb]
    simp only [Option.some_bind]
  · intro buf ctx
    rfl
  · intro buf ctx
    rfl

/-- Evaluation context for the C2 witness. -/
def c2Ctx0 : EvalCtx Int :=
  { y := [1, 2], extendedAllocator := [], size := 8, extendedSize := 32,
    nextBuf := 0, log := [] }

/-- Context state after forcing the left unit operand of the witness product
node to degree 4. -/
def c2Ctx3 : EvalCtx Int :=
  { y := [1, 2], extendedAllocator := [1], size := 8, extendedSize := 32,
    nextBuf := 2,
    log := [DevOp.allocBuffer 0, DevOp.fieldMulSumVec 0 [(10, 0, none)] 8,
      DevOp.allocBuffer 1, DevOp.extendedPrepare 0, DevOp.nttRaw 0 1] }

/-- Context state after forcing both unit operands of the witness product
node to degree 4. -/
def c2Ctx4 : EvalCtx Int :=
  { y := [1, 2], extendedAllocator := [2], size := 8, extendedSize := 32,
    nextBuf := 3,
    log := [DevOp.allocBuffer 0, DevOp.fieldMulSumVec 0 [(10, 0, none)] 8,
      DevOp.allocBuffer 1, DevOp.extendedPrepare 0, DevOp.nttRaw 0 1,
      DevOp.fieldMulSumVec 1 [(20, 0, none)] 8, DevOp.allocBuffer 2,
      DevOp.extendedPrepare 1, DevOp.nttRaw 1 2] }

/-- Witness for C2 at a concrete expression over `Int`: the sum of two unit
references stays a lazy Borrowed-sum with the context untouched, and their
product materialises both sides and multiplies at the extended size. -/
theorem evaluate_prove_expr_sum_lazy_product_forced_witness :
    evaluate_prove_expr (F := Int) [10] [20] []
        (.op (.unit (.fixed 0 0)) (.unit (.advice 0 0)) .Sum) c2Ctx0 =
      some (.sumBorrow 1 [(10, 0, none), (20, 0, none)] none, c2Ctx0) ∧
    evaluate_prove_expr (F := Int) [10] [20] []
        (.op (.unit (.fixed 0 0)) (.unit (.advice 0 0)) .Product) c2Ctx0 =
      some (.single 4 0,
        pushExt (addLog c2Ctx4 (DevOp.fieldMul 0 1 c2Ctx4.extendedSize)) 1) :=
  ⟨(evaluate_prove_expr_sum_lazy_product_forced (F := Int)).1 [10] [20] []
      (.unit (.fixed 0 0)) (.unit (.advice 0 0)) c2Ctx0 c2Ctx0 c2Ctx0
      [(10, 0, none)] [(20, 0, none)] none none (by decide) (by decide),
    (evaluate_prove_expr_sum_lazy_product_forced (F := Int)).2.1 [10] [20] []
      (.unit (.fixed 0 0)) (.unit (.advice 0 0)) c2Ctx0
      (.sumBorrow 1 [(10, 0, none)] none) (.sumBorrow 1 [(20, 0, none)] none)
      c2Ctx0 c2Ctx0 c2Ctx3 c2Ctx4 0 1 (by decide) (by decide) (by decide)
      (by decide)⟩

end ExpressionEngineClaims

/-! ## Proof orchestrator transcript order (`create_proof_from_advices`)

Only the transcript-visible events are modelled: `write_point` calls carry a
tag identifying which commitment is written (the MSM results are opaque
group elements, identified here by what they commit to), and
`squeeze_challenge_scalar` calls carry the challenge name.  The external
collaborators `create_single_instances` (lib.rs 326-328) and
`vanishing::Argument::commit` (lib.rs 819-821) receive the transcript and
emit opaque event segments, taken as parameters. -/

section Orchestrator

inductive ChallengeTag where
  | theta
  | beta
  | gamma
  | y
deriving DecidableEq

inductive PointTag where
  | advice (i : Nat)
  | lookupPermutedInput (i : Nat)
  | lookupPermutedTable (i : Nat)
  | permutationProduct (i : Nat)
  | lookupZ (i : Nat)
  | identityPoint
deriving DecidableEq

inductive TranscriptEvent where
  | writePoint (p : PointTag)
  | squeezeChallenge (c : ChallengeTag)
deriving DecidableEq

/-- Shape of one lookup constraint, the data `lookup_classify`
(lib.rs 96-128) inspects. -/
structure LookupShape where
  num_inputs : Nat
  num_tables : Nat
  input_pure_unit : Bool
  table_pure_unit : Bool
deriving DecidableEq

def isSingleLookup (s : LookupShape) : Bool :=
  s.num_inputs = 1 && s.num_tables = 1

def isUnitLookup (s : LookupShape) : Bool :=
  s.input_pure_unit && s.table_pure_unit

/-- Embedding of `lookup_classify` (lib.rs 96-128): enumerate the lookups and push each
into the single-unit, single-composite or tuple bucket; pushing in
enumeration order is filtering the enumeration. -/
def lookup_classify (shapes : List LookupShape) :
    List (Nat × LookupShape) × List (Nat × LookupShape) ×
      List (Nat × LookupShape) :=
  (shapes.enum.filter (fun p => isSingleLookup p.2 && isUnitLookup p.2),
   shapes.enum.filter (fun p => isSingleLookup p.2 && !isUnitLookup p.2),
   shapes.enum.filter (fun p => !isSingleLookup p.2))

/-- One MSM loop over a classified group (lib.rs 558-588): store the
permuted-input and permuted-table commitments of lookup `i` at positions
`i * 2` and `i * 2 + 1` of `lookup_permuted_commitments`. -/
def fillGroup (vec : List PointTag) (group : List (Nat × LookupShape)) :
    List PointTag :=
  group.foldl
    (fun vec p =>
      (vec.set (p.1 * 2) (PointTag.lookupPermutedInput p.1)).set (p.1 * 2 + 1)
        (PointTag.lookupPermutedTable p.1))
    vec

/-- State of `lookup_permuted_commitments` after the three MSM loops: initialised
with `C::identity()` (lib.rs 551), filled group by group. -/
def lookupPermutedCommitments (shapes : List LookupShape) : List PointTag :=
  let cl := lookup_classify shapes
  fillGroup (fillGroup (fillGroup
    (List.replicate (shapes.length * 2) PointTag.identityPoint) cl.1) cl.2.1)
    cl.2.2

def emitWrites (t : List TranscriptEvent) (ps : List PointTag) :
    List TranscriptEvent :=
  ps.foldl (fun t p => t ++ [TranscriptEvent.writePoint p]) t

/-- Transcript-event trace of `create_proof_from_advices` (lib.rs 306-876),
following the statement order of the code. -/
def create_proof_trace (numAdvice : Nat) (shapes : List LookupShape)
    (numPermChunks : Nat)
    (instanceEvents vanishingEvents : List TranscriptEvent) :
    List TranscriptEvent :=
  -- create_single_instances receives the transcript (lib.rs 326-328)
  let t : List TranscriptEvent := [] ++ instanceEvents
  -- advices msm loop writes each advice commitment (lib.rs 484-489)
  let t := emitWrites t ((List.range numAdvice).map PointTag.advice)
  -- theta (lib.rs 491)
  let t := t ++ [TranscriptEvent.squeezeChallenge ChallengeTag.theta]
  -- the single-unit / single-composite / tuple msm loops fill
  -- lookup_permuted_commitments by index (lib.rs 551-589), written in vec
  -- order afterwards (lib.rs 591-593)
  let t := emitWrites t (lookupPermutedCommitments shapes)
  -- beta, gamma (lib.rs 595-598)
  let t := t ++ [TranscriptEvent.squeezeChallenge ChallengeTag.beta]
  let t := t ++ [TranscriptEvent.squeezeChallenge ChallengeTag.gamma]
  -- lookup z commitments are computed (lib.rs 752-755) but written later;
  -- permutation product commitments are written inside their msm loop
  -- (lib.rs 798-812)
  let t := emitWrites t
    ((List.range numPermChunks).map PointTag.permutationProduct)
  -- lookup z commitments written (lib.rs 814-816)
  let t := emitWrites t ((List.range shapes.length).map PointTag.lookupZ)
  -- vanishing argument commit (lib.rs 819-821)
  let t := t ++ vanishingEvents
  -- y (lib.rs 823)
  t ++ [TranscriptEvent.squeezeChallenge ChallengeTag.y]

theorem emitWrites_eq (t : List TranscriptEvent) (ps : List PointTag) :
    emitWrites t ps = t ++ ps.map TranscriptEvent.writePoint := by
  induction ps generalizing t with
  | nil => simp [emitWrites]
  | cons p ps ih =>
      show emitWrites (t ++ [TranscriptEvent.writePoint p]) ps = _
      rw [ih]
      simp

/-- Tag expected at position `j` of `lookup_permuted_commitments`. -/
def permTagAt (j : Nat) : PointTag :=
  if j % 2 = 0 then PointTag.lookupPermutedInput (j / 2)
  else PointTag.lookupPermutedTable (j / 2)

theorem fillGroup_length (vec : List PointTag)
    (group : List (Nat × LookupShape)) :
    (fillGroup vec group).length = vec.length := by
  induction group generalizing vec with
  | nil => rfl
  | cons p rest ih =>
      show (fillGroup _ rest).length = _
      rw [ih]
      simp

theorem fillGroup_getElem (n : Nat) (group : List (Nat × LookupShape))
    (vec : List PointTag) (hlen : vec.length = 2 * n)
    (hg : ∀ p ∈ group, p.1 < n) (j : Nat) (hj : j < 2 * n) :
    (fillGroup vec group)[j]? =
      if j / 2 ∈ group.map Prod.fst then some (permTagAt j) else vec[j]? := by
  induction group generalizing vec with
  | nil => simp [fillGroup]
  | cons p rest ih =>
      have hp : p.1 < n := hg p (List.mem_cons_self _ _)
      have hstep : fillGroup vec (p :: rest) =
          fillGroup ((vec.set (p.1 * 2) (PointTag.lookupPermutedInput p.1)).set
            (p.1 * 2 + 1) (PointTag.lookupPermutedTable p.1)) rest := rfl
      have hlen2 : ((vec.set (p.1 * 2) (PointTag.lookupPermutedInput p.1)).set
          (p.1 * 2 + 1) (PointTag.lookupPermutedTable p.1)).length = 2 * n := by
        simp [hlen]
      rw [hstep, ih _ hlen2 (fun q hq => hg q (List.mem_cons_of_mem _ hq))]
      by_cases hrest : j / 2 ∈ rest.map Prod.fst
      · rw [if_pos hrest, if_pos (by simp [hrest])]
      · rw [if_neg hrest]
        by_cases hpj : j / 2 = p.1
        · rw [if_pos (by simp [hpj])]
          by_cases hpar : j % 2 = 0
          · have hj2 : j = p.1 * 2 := by omega
            have hb : p.1 * 2 < vec.length := by omega
            rw [hj2, List.getElem?_set_ne (by omega),
              List.getElem?_set_self hb]
            unfold permTagAt
            have hm : p.1 * 2 % 2 = 0 := by omega
            have harg : p.1 * 2 / 2 = p.1 := by omega
            rw [if_pos hm, harg]
          · have hj2 : j = p.1 * 2 + 1 := by omega
            have hb : p.1 * 2 + 1 < vec.length := by omega
            rw [hj2, List.getElem?_set_self (by simpa using hb)]
            unfold permTagAt
            have hm : ¬(p.1 * 2 + 1) % 2 = 0 := by omega
            have harg : (p.1 * 2 + 1) / 2 = p.1 := by omega
            rw [if_neg hm, harg]
        · rw [if_neg (by simp [hpj, hrest])]
          rw [List.getElem?_set_ne (by omega), List.getElem?_set_ne (by omega)]

theorem classify_covers (shapes : List LookupShape) (i : Nat)
    (hi : i < shapes.length) :
    i ∈ ((lookup_classify shapes).1 ++ (lookup_classify shapes).2.1 ++
      (lookup_classify shapes).2.2).map Prod.fst := by
  have hmem : (i, shapes[i]) ∈ shapes.enum := by
    rw [List.mem_enum_iff_getElem?]
    exact List.getElem?_eq_getElem hi
  simp only [lookup_classify, List.map_append, List.mem_append, List.mem_map]
  by_cases hs : isSingleLookup shapes[i] = true
  · by_cases hu : isUnitLookup shapes[i] = true
    · exact Or.inl (Or.inl ⟨(i, shapes[i]),
        List.mem_filter.mpr ⟨hmem, by simp [hs, hu]⟩, rfl⟩)
    · exact Or.inl (Or.inr ⟨(i, shapes[i]),
        List.mem_filter.mpr ⟨hmem, by simp [hs, hu]⟩, rfl⟩)
  · exact Or.inr ⟨(i, shapes[i]),
      List.mem_filter.mpr ⟨hmem, by simp [hs]⟩, rfl⟩

theorem classify_bounded (shapes : List LookupShape) :
    ∀ p ∈ (lookup_classify shapes).1 ++ (lookup_classify shapes).2.1 ++
      (lookup_classify shapes).2.2, p.1 < shapes.length := by
  intro p hp
  simp only [lookup_classify, List.mem_append] at hp
  have hmem : p ∈ shapes.enum := by
    rcases hp with (h | h) | h <;> exact (List.mem_filter.mp h).1
  rcases p with ⟨i, s⟩
  rw [List.mem_enum_iff_getElem?] at hmem
  exact (List.getElem?_eq_some.mp hmem).1

theorem flatMap_pairs_length (n : Nat) (f g : Nat → PointTag) :
    ((List.range n).flatMap (fun i => [f i, g i])).length = 2 * n := by
  induction n with
  | zero => rfl
  | succ n ih =>
      rw [List.range_succ, List.flatMap_append, List.length_append, ih]
      simp
      omega

theorem flatMap_pairs_getElem (n : Nat) (j : Nat) (hj : j < 2 * n) :
    ((List.range n).flatMap (fun i =>
      [PointTag.lookupPermutedInput i, PointTag.lookupPermutedTable i]))[j]? =
      some (permTagAt j) := by
  induction n with
  | zero => omega
  | succ n ih =>
      rw [List.range_succ, List.flatMap_append]
      have hlen := flatMap_pairs_length n
        PointTag.lookupPermutedInput PointTag.lookupPermutedTable
      by_cases hlt : j < 2 * n
      · rw [List.getElem?_append_left (by rw [hlen]; omega)]
        exact ih hlt
      · rw [List.getElem?_append_right (by omega)]
        rw [hlen]
        by_cases hpar : j % 2 = 0
        · have hj2 : j = 2 * n := by omega
          subst hj2
          have h0 : 2 * n - 2 * n = 0 := by omega
          rw [h0]
          unfold permTagAt
          have hm : 2 * n % 2 = 0 := by omega
          have harg : 2 * n / 2 = n := by omega
          rw [if_pos hm, harg]
          rfl
        · have hj2 : j = 2 * n + 1 := by omega
          subst hj2
          have h1 : 2 * n + 1 - 2 * n = 1 := by omega
          rw [h1]
          unfold permTagAt
          have hm : ¬(2 * n + 1) % 2 = 0 := by omega
          have harg : (2 * n + 1) / 2 = n := by omega
          rw [if_neg hm, harg]
          rfl

theorem lookupPermutedCommitments_eq (shapes : List LookupShape) :
    lookupPermutedCommitments shapes =
      (List.range shapes.length).flatMap (fun i =>
        [PointTag.lookupPermutedInput i, PointTag.lookupPermutedTable i]) := by
  have hfill : lookupPermutedCommitments shapes =
      fillGroup (List.replicate (shapes.length * 2) PointTag.identityPoint)
        ((lookup_classify shapes).1 ++ (lookup_classify shapes).2.1 ++
          (lookup_classify shapes).2.2) := by
    unfold lookupPermutedCommitments fillGroup
    rw [List.foldl_append, List.foldl_append]
  apply List.ext_getElem?
  intro j
  by_cases hj : j < 2 * shapes.length
  · rw [hfill, fillGroup_getElem shapes.length _ _ (by simp [Nat.mul_comm])
      (classify_bounded shapes) j hj]
    rw [if_pos (classify_covers shapes (j / 2) (by omega))]
    rw [flatMap_pairs_getElem shapes.length j hj]
  · have h1 : (lookupPermutedCommitments shapes).length = 2 * shapes.length := by
      rw [hfill, fillGroup_length]
      simp [Nat.mul_comm]
    have h2 := flatMap_pairs_length shapes.length
      PointTag.lookupPermutedInput PointTag.lookupPermutedTable
    rw [List.getElem?_eq_none (by omega), List.getElem?_eq_none (by omega)]

/-- C6: `create_proof_from_advices` interacts with the transcript in exactly
this order: the instance-commitment events of `create_single_instances`,
one `write_point` per advice commitment, the squeeze of `theta`, one
`write_point` per lookup permuted-input/permuted-table commitment (in index
order: input then table for lookup 0, 1, ...), the squeezes of `beta` and
`gamma`, one `write_point` per permutation-product commitment followed by
one per lookup z commitment, the vanishing-argument events, and the squeeze
of `y`; hence no challenge is squeezed before the commitments preceding it
are written. -/
theorem create_proof_trace_order (numAdvice : Nat) (shapes : List LookupShape)
    (numPermChunks : Nat)
    (instanceEvents vanishingEvents : List TranscriptEvent) :
    create_proof_trace numAdvice shapes numPermChunks instanceEvents
        vanishingEvents =
      instanceEvents
        ++ (List.range numAdvice).map
            (fun i => TranscriptEvent.writePoint (PointTag.advice i))
        ++ [TranscriptEvent.squeezeChallenge ChallengeTag.theta]
        ++ (List.range shapes.length).flatMap (fun i =>
            [TranscriptEvent.writePoint (PointTag.lookupPermutedInput i),
              TranscriptEvent.writePoint (PointTag.lookupPermutedTable i)])
        ++ [TranscriptEvent.squeezeChallenge ChallengeTag.beta,
            TranscriptEvent.squeezeChallenge ChallengeTag.gamma]
        ++ (List.range numPermChunks).map
            (fun i => TranscriptEvent.writePoint (PointTag.permutationProduct i))
        ++ (List.range shapes.length).map
            (fun i => TranscriptEvent.writePoint (PointTag.lookupZ i))
        ++ vanishingEvents
        ++ [TranscriptEvent.squeezeChallenge ChallengeTag.y] := by
  simp only [create_proof_trace]
  rw [emitWrites_eq, emitWrites_eq, emitWrites_eq, emitWrites_eq,
    lookupPermutedCommitments_eq, List.map_flatMap]
  simp only [List.map_map, List.append_assoc, Function.comp_def,
    List.cons_append, List.nil_append, List.singleton_append]
  rfl

end Orchestrator

end ZkWasmProver
